import Mathlib

/-!
The doorbellgap firmware: frame codec, clock and device state.

A shallow embedding of `main.c` (ATtiny firmware that learns and replays a
pulse train).  Machine integers are natural numbers with explicit reduction
modulo `2^w` wherever the C code could wrap; the one signed variable
(`int8_t index` of `frame_add`) is an `Int`.  The target is AVR: `int` is 16
bits wide, `uint16_t` is `unsigned int`, and the constant `4294967295` has
type `long long`.
-/

namespace Doorbellgap

/-! ## Constants (`#define`s of main.c) -/

/-- Constant `MAX_MICROS` (`#define MAX_MICROS 4294967295`). -/
def MAX_MICROS : Nat := 4294967295

/-- Constant `MIN_PULSES` (`#define MIN_PULSES 20`). -/
def MIN_PULSES : Nat := 20

/-- Constant `MAX_PULSES` (`#define MAX_PULSES 256 // must be even`). -/
def MAX_PULSES : Nat := 256

/-- Constant `MAX_SEQUENCE` (`#define MAX_SEQUENCE MAX_PULSES / 2`). -/
def MAX_SEQUENCE : Nat := MAX_PULSES / 2

/-- Constant `MAX_TIMES` (`#define MAX_TIMES 16`). -/
def MAX_TIMES : Nat := 16

/-- Constant `MAX_TIMEDIF` (`#define MAX_TIMEDIF 100`). -/
def MAX_TIMEDIF : Nat := 100

/-! ## Data model -/

/-- The struct `frame_t`: `uint16_t times[16]`, `uint8_t squence[128]`,
`uint8_t times_count`, `uint16_t length`.  Arrays are lists; reads use
`List.getD _ 0` and writes `List.set`, which agree with C on every in-range
index. -/
structure frame_t where
  times : List Nat
  squence : List Nat
  times_count : Nat
  length : Nat
deriving DecidableEq

/-- The typing of a `frame_t` value: array sizes and the ranges of the
machine integers stored in each field. -/
def frame_t.WF (f : frame_t) : Prop :=
  f.times.length = 16 ∧ f.squence.length = 128 ∧
  (∀ x ∈ f.times, x < 65536) ∧ (∀ x ∈ f.squence, x < 256) ∧
  f.times_count < 256 ∧ f.length < 65536

/-- The enum `state_t`. -/
inductive state_t where
  | IDLE
  | SEND
  | RECEIVE
deriving DecidableEq

/-! ## Helpers: time comparison and clock -/

/-- C: `uint16_t abs_diff(uint16_t a, uint16_t b)`; the subtraction is
unsigned 16-bit. -/
def abs_diff (a b : Nat) : Nat :=
  if a > b then (a + 65536 - b) % 65536 else (b + 65536 - a) % 65536

/-- C: `bool time_cmp(uint16_t a, uint16_t b)`. -/
def time_cmp (a b : Nat) : Bool :=
  decide (abs_diff a b ≤ MAX_TIMEDIF)

/-- C: `uint32_t time_diff(uint32_t a, uint32_t b)`.  `a - b` and `b - a` are
unsigned 32-bit; `MAX_MICROS - (b - a)` is evaluated in 64-bit `long long`
and truncated to 32 bits on return. -/
def time_diff (a b : Nat) : Nat :=
  if a ≥ b then (a + 4294967296 - b) % 4294967296
  else ((MAX_MICROS + 18446744073709551616 - (b + 4294967296 - a) % 4294967296)
          % 18446744073709551616) % 4294967296

/-- C: the body of `ISR(TIMER1_COMPA_vect)` as a function on `micros`. -/
def TIMER1_COMPA_vect (micros : Nat) : Nat :=
  if micros > MAX_MICROS - 10 then 0 else (micros + 10) % 4294967296

/-- The counter after `k` timer interrupts. -/
def ticks : Nat → Nat → Nat
  | 0, micros => micros
  | k + 1, micros => ticks k (TIMER1_COMPA_vect micros)

/-- How many of the next `k` timer interrupts take the restart branch
(`micros = 0`). -/
def restarts : Nat → Nat → Nat
  | 0, _ => 0
  | k + 1, micros =>
    (if micros > MAX_MICROS - 10 then 1 else 0) + restarts k (TIMER1_COMPA_vect micros)

/-! ## Frame codec -/

/-- C: `void frame_clear(frame_t* frame)`. -/
def frame_clear (frame : frame_t) : frame_t :=
  { frame with times_count := 0, length := 0 }

/-- Conversion of a small unsigned value to `int8_t` (two's complement). -/
def int8_of (n : Nat) : Int :=
  if n % 256 < 128 then ((n % 256 : Nat) : Int) else ((n % 256 : Nat) : Int) - 256

/-- The search loop of `frame_add` (lines 181-187): the value of `index` on
leaving `for (uint8_t i = ...; i < frame->times_count; i++)` when entered at
loop variable `i`.  The last argument bounds the number of iterations; the
loop makes at most `times_count` of them. -/
def frame_add_scan (frame : frame_t) (time : Nat) : Nat → Nat → Int
  | _, 0 => -1
  | i, fuel + 1 =>
    if i < frame.times_count then
      if time_cmp (frame.times.getD i 0) time then int8_of i
      else frame_add_scan frame time ((i + 1) % 256) fuel
    else -1

/-- Lines 195-205 of `frame_add`: the sequence capacity check and the nibble
write of `index` at position `length`. -/
def frame_add_store (frame : frame_t) (index : Int) : frame_t × Bool :=
  if frame.length ≥ MAX_PULSES then (frame, false)
  else
    let i := (frame.length >>> 1) % 256
    let idx := (index % 256).toNat
    let old := frame.squence.getD i 0
    let new :=
      if frame.length &&& 1 ≠ 0 then (old &&& 0x0f) ||| ((idx <<< 4) % 256)
      else (old &&& 0xf0) ||| idx
    ({ frame with squence := frame.squence.set i new,
                  length := (frame.length + 1) % 65536 }, true)

/-- C: `bool frame_add(frame_t* frame, uint16_t time)`; returns the frame
after the call together with the returned flag. -/
def frame_add (frame : frame_t) (time : Nat) : frame_t × Bool :=
  let index := frame_add_scan frame time 0 frame.times_count
  if index = -1 then
    if frame.times_count ≥ MAX_TIMES then (frame, false)
    else
      frame_add_store
        { frame with times := frame.times.set frame.times_count time,
                     times_count := (frame.times_count + 1) % 256 }
        (int8_of frame.times_count)
  else frame_add_store frame index

/-- The 4-bit index stored at sequence position `i`: the local `index` of
`frame_get`. -/
def frame_get_index (frame : frame_t) (i : Nat) : Nat :=
  let shift := if i &&& 1 ≠ 0 then 4 else 0
  ((frame.squence.getD (i >>> 1) 0) >>> shift) &&& 0x0f

/-- C: `uint16_t frame_get(const frame_t* frame, uint16_t i)`. -/
def frame_get (frame : frame_t) (i : Nat) : Nat :=
  frame.times.getD (frame_get_index frame i) 0

/-! ## Device state -/

/-- C: `void state_set(state_t new_state)` as a function on the global
`state`. -/
def state_set (state new_state : state_t) : state_t :=
  if state ≠ state_t.IDLE then state else new_state

/-- One pass of the `switch (state)` in `main`: the new value of `state` once
the dispatched engine (`receive()` or `send(&frame, 10)`) has returned.
Neither engine assigns `state`. -/
def main_switch (state : state_t) : state_t :=
  match state with
  | state_t.IDLE => state_t.IDLE
  | state_t.RECEIVE => state_t.IDLE
  | state_t.SEND => state_t.IDLE

/-! ## Runs of the codec -/

/-- A frame with zeroed arrays, as the global `frame` is at boot. -/
def frame_zero : frame_t :=
  { times := List.replicate 16 0, squence := List.replicate 128 0,
    times_count := 0, length := 0 }

/-- Run `frame_add` for each duration in order, threading the frame; collects
the returned flags. -/
def frame_add_all (frame : frame_t) : List Nat → frame_t × List Bool
  | [] => (frame, [])
  | t :: ts =>
    let r := frame_add frame t
    let rest := frame_add_all r.1 ts
    (rest.1, r.2 :: rest.2)

/-- Frames reachable from `frame_clear` by `frame_add` calls, whatever each
call returned. -/
inductive Reachable : frame_t → Prop where
  | clear (f : frame_t) (h : f.WF) : Reachable (frame_clear f)
  | add (f : frame_t) (t : Nat) (ht : t < 65536) (h : Reachable f) :
      Reachable (frame_add f t).1

/-! ## Specification-side predicates and concrete frames -/

/-- Two durations are within the tolerance of 100 microseconds. -/
def within_tol (a b : Nat) : Prop := a ≤ b + 100 ∧ b ≤ a + 100

instance (a b : Nat) : Decidable (within_tol a b) := by
  unfold within_tol; infer_instance

/-- The byte written by `frame_add_store` at position `length / 2`, with the
shifts and masks on the position written as division and remainder. -/
def store_byte (g : frame_t) (idx : Nat) : Nat :=
  if g.length % 2 ≠ 0 then (g.squence.getD (g.length / 2) 0 &&& 0x0f) ||| ((idx <<< 4) % 256)
  else (g.squence.getD (g.length / 2) 0 &&& 0xf0) ||| idx

/-- The frame of the C1 witness: table `[100, 250]`, two edges recorded. -/
def frame_c1 : frame_t :=
  { times := [100, 250] ++ List.replicate 14 0,
    squence := 0x10 :: List.replicate 127 0,
    times_count := 2, length := 2 }

/-- A frame whose table `[100, 250]` has room and whose sequence is full. -/
def frame_c3 : frame_t :=
  { times := [100, 250] ++ List.replicate 14 0,
    squence := List.replicate 128 0x10,
    times_count := 2, length := 256 }

/-- The frame after 256 edges of 1000 microseconds: one table entry, the
sequence full. -/
def frame_full : frame_t :=
  { times := 1000 :: List.replicate 15 0,
    squence := List.replicate 128 0,
    times_count := 1, length := 256 }

/-- The invariant of frames built by `frame_clear` and `frame_add`: field
ranges, capacity bounds, stored indices below `times_count`, and no two table
entries within tolerance of each other. -/
structure FrameInv (f : frame_t) : Prop where
  wf : f.WF
  count_le : f.times_count ≤ 16
  length_le : f.length ≤ 256
  index_lt : ∀ p, p < f.length → frame_get_index f p < f.times_count
  dedup : ∀ i j, i < f.times_count → j < f.times_count → i ≠ j →
    time_cmp (f.times.getD i 0) (f.times.getD j 0) = false

/-- The frame after `frame_clear` and the edges 100 and 250. -/
def frame_two : frame_t :=
  (frame_add (frame_add (frame_clear frame_zero) 100).1 250).1

/-! ## Capture, replay and configuration (second part of main.c) -/

/-- Constant `MAGIC` (`#define MAGIC 0x616e6469`). -/
def MAGIC : Nat := 0x616e6469

/-- Constant `VERSION` (`#define VERSION 1`). -/
def VERSION : Nat := 1

/-- Constant `FLAGS_FRAME` (`#define FLAGS_FRAME 1`). -/
def FLAGS_FRAME : Nat := 1

/-- Constant `DEFAULT_FLAGS` (`#define DEFAULT_FLAGS 0`). -/
def DEFAULT_FLAGS : Nat := 0

/-- Constant `MIN_TIME` (`#define MIN_TIME 70`). -/
def MIN_TIME : Nat := 70

/-- Constant `MIN_GAP` (`#define MIN_GAP 3000`). -/
def MIN_GAP : Nat := 3000

/-- Constant `TIMEOUT` (`#define TIMEOUT 10000000`). -/
def TIMEOUT : Nat := 10000000

/-- Constant `BLINK_INTERVAL` (`#define BLINK_INTERVAL 300`). -/
def BLINK_INTERVAL : Nat := 300

/-- The value `timer_start` assigns to `micros` (`micros = 0;`). -/
def timer_start : Nat := 0

/-- The loop of `delay_us` (and, with 10 ms steps, of `delay_ms`; the two
bodies are the same): the number of `_delay_us(10)` calls made before the
`break`, or `none` when the given number of iterations does not reach it.
`count -= 10` is unsigned 16-bit. -/
def delay_us_loop : Nat → Nat → Option Nat
  | 0, _ => none
  | fuel + 1, count =>
    if count ≤ 10 then some 1
    else (delay_us_loop fuel ((count + 65536 - 10) % 65536)).map (fun n => n + 1)

/-- The loop of `delay_ms`: the number of `_delay_ms(10)` calls made before
the `break`. -/
def delay_ms_loop : Nat → Nat → Option Nat
  | 0, _ => none
  | fuel + 1, count =>
    if count ≤ 10 then some 1
    else (delay_ms_loop fuel ((count + 65536 - 10) % 65536)).map (fun n => n + 1)

/-- The time `delay_us(count)` waits, in microseconds: 10 for each
`_delay_us(10)` call of its loop. -/
def delay_us_wait (fuel count : Nat) : Option Nat :=
  (delay_us_loop fuel count).map (fun n => 10 * n)

/-- What `send` does to the outside, in program order: writes to the LED and
sender bits of `PORTB`, calls of `delay_us` and calls of `led_blink`. -/
inductive event where
  | led_blink (interval count : Nat)
  | led_clear
  | sender_clear
  | led_toggle
  | sender_toggle
  | delay_us (count : Nat)
deriving DecidableEq

/-- The inner loop of `send` (`for (uint16_t j = ...; j < frame->length; j++)`)
entered at loop variable `j`; the last argument bounds the iterations. -/
def send_inner (frame : frame_t) : Nat → Nat → List event
  | _, 0 => []
  | j, fuel + 1 =>
    if j < frame.length then
      [event.led_toggle, event.sender_toggle, event.delay_us (frame_get frame j)] ++
        send_inner frame ((j + 1) % 65536) fuel
    else []

/-- The outer loop of `send` (`for (uint8_t i = ...; i < repeat; i++)`) entered
at loop variable `i`; the last argument bounds the iterations. -/
def send_outer (frame : frame_t) (rep : Nat) : Nat → Nat → List event
  | _, 0 => []
  | i, fuel + 1 =>
    if i < rep then
      send_inner frame 0 frame.length ++ [event.led_clear, event.sender_clear] ++
        send_outer frame rep ((i + 1) % 256) fuel
    else []

/-- C: `void send(const frame_t* frame, uint8_t repeat)`, reading the global
`flags`; the result is the trace of its outside effects. -/
def send (flags : Nat) (frame : frame_t) (rep : Nat) : List event :=
  if flags &&& FLAGS_FRAME = 0 then [event.led_blink BLINK_INTERVAL 3]
  else
    [event.led_clear, event.sender_clear] ++ send_outer frame rep 0 rep

/-- The level of the sender pin after a trace, from the level before it. -/
def sender_level : Bool → List event → Bool
  | b, [] => b
  | _, event.sender_clear :: es => sender_level false es
  | b, event.sender_toggle :: es => sender_level (!b) es
  | b, _ :: es => sender_level b es

/-- The global variables other than `state` and `micros`, and the EEPROM
variables. -/
structure device_t where
  flags : Nat
  frame : frame_t
  last_frame_length : Nat
  last_frame_gap : Nat
  eeprom_magic : Nat
  eeprom_version : Nat
  eeprom_flags : Nat
  eeprom_frame : frame_t
deriving DecidableEq

/-- C: `bool config_load_meta()`. -/
def config_load_meta (d : device_t) : device_t × Bool :=
  if d.eeprom_magic ≠ MAGIC then (d, false)
  else if d.eeprom_version ≠ VERSION then (d, false)
  else ({ d with flags := d.eeprom_flags }, true)

/-- C: `bool config_load_frame()`. -/
def config_load_frame (d : device_t) : device_t × Bool :=
  if d.flags &&& FLAGS_FRAME = 0 then (d, false)
  else ({ d with frame := d.eeprom_frame }, true)

/-- C: `void config_save_meta()`. -/
def config_save_meta (d : device_t) : device_t :=
  { d with eeprom_magic := MAGIC, eeprom_version := VERSION, eeprom_flags := d.flags }

/-- C: `void config_save_frame()`. -/
def config_save_frame (d : device_t) : device_t :=
  { d with eeprom_frame := d.frame }

/-- C: `void setup()`, on the variables of `device_t` (pin and timer set-up
and the `led_blink` call write none of them). -/
def setup (d : device_t) : device_t :=
  let d1 := { d with frame := frame_clear d.frame }
  let r := config_load_meta d1
  if r.2 then (config_load_frame r.1).1
  else config_save_meta { r.1 with flags := DEFAULT_FLAGS }

/-- The globals at power-on: zero-initialised RAM variables, and the EEPROM
as it was left. -/
def power_on (magic version eflags : Nat) (eframe : frame_t) : device_t :=
  { flags := 0, frame := frame_zero, last_frame_length := 0, last_frame_gap := 0,
    eeprom_magic := magic, eeprom_version := version, eeprom_flags := eflags,
    eeprom_frame := eframe }

/-- C: `void receive_callback()` (the `led_blink` call writes no variable of
`device_t`); `flags |= FLAGS_FRAME` is unsigned 8-bit. -/
def receive_callback (d : device_t) : device_t :=
  config_save_frame (config_save_meta { d with flags := (d.flags ||| FLAGS_FRAME) % 256 })

/-- C: `void receive_timeout()`. -/
def receive_timeout (d : device_t) : device_t :=
  (config_load_frame d).1

/-- Line 263 of `receive`: `uint16_t time = (uint16_t) time_diff(now, last_time)`. -/
def receive_time (now last_time : Nat) : Nat :=
  time_diff now last_time % 65536

/-- Lines 264-270 of `receive`: the working frame after the `frame_add`
attempt for `time`, with the restart on failure. -/
def receive_add (frame : frame_t) (time : Nat) : frame_t :=
  if time ≥ MIN_TIME then
    let r := frame_add frame time
    if ¬ r.2 then (frame_add (frame_clear r.1) time).1 else r.1
  else frame

/-- Lines 264-285 of `receive`, the level-change branch once `time` is
computed, on the globals; the flag tells whether the branch reached
`receive_callback(); break;` (the caller then runs `receive_callback`). -/
def receive_edge (d : device_t) (time : Nat) : device_t × Bool :=
  let frame := receive_add d.frame time
  if frame.length ≥ MIN_PULSES ∧ time > MIN_GAP then
    if d.last_frame_length = frame.length ∧ time_cmp d.last_frame_gap time = true then
      ({ d with frame := frame }, true)
    else
      ({ d with frame := frame_clear frame, last_frame_length := frame.length,
                last_frame_gap := time }, false)
  else ({ d with frame := frame }, false)

/-- Feed a list of gaps to the level-change branch, one edge each, stopping at
the branch that confirms; the second component is the position of that edge,
or `none` when no edge of the list confirms. -/
def receive_edges : device_t → List Nat → device_t × Option Nat
  | d, [] => (d, none)
  | d, t :: ts =>
    let r := receive_edge d t
    if r.2 then (r.1, some 0)
    else
      let rest := receive_edges r.1 ts
      (rest.1, rest.2.map (fun k => k + 1))

/-- The locals of `receive` together with the globals. -/
structure receive_t where
  dev : device_t
  start : Nat
  last_in : Nat
  last_time : Nat
deriving DecidableEq

/-- How one pass of the `while (true)` loop of `receive` leaves the session:
still running, or ended by `receive_callback` or by `receive_timeout`. -/
inductive receive_result where
  | running (s : receive_t)
  | confirmed (d : device_t)
  | timed_out (d : device_t)
deriving DecidableEq

/-- Lines 242-247 of `receive`: the session state on entering the loop, from
the readings of `micros` and of the receiver pin. -/
def receive_begin (d : device_t) (micros pin : Nat) : receive_t :=
  { dev := { d with frame := frame_clear d.frame, last_frame_length := 0 },
    start := micros, last_in := pin, last_time := micros }

/-- One pass of the `while (true)` loop of `receive` with the readings `now`
of `micros` and `pin` of the receiver pin (writes to the LED are left out). -/
def receive_loop_body (s : receive_t) (now pin : Nat) : receive_result :=
  let duration := time_diff now s.start
  if duration > TIMEOUT then receive_result.timed_out (receive_timeout s.dev)
  else if s.last_in ≠ pin then
    let time := receive_time now s.last_time
    let r := receive_edge s.dev time
    if r.2 then receive_result.confirmed (receive_callback r.1)
    else receive_result.running { s with dev := r.1, last_in := pin, last_time := now }
  else receive_result.running s

/-- The loop of `receive` over a list of readings `(now, pin)`, one for each
pass. -/
def receive_loop : receive_t → List (Nat × Nat) → receive_result
  | s, [] => receive_result.running s
  | s, (now, pin) :: rest =>
    match receive_loop_body s now pin with
    | receive_result.running s1 => receive_loop s1 rest
    | r => r

/-- C: `void receive()` over the readings met by its loop. -/
def receive (d : device_t) (micros pin : Nat) (samples : List (Nat × Nat)) : receive_result :=
  receive_loop (receive_begin d micros pin) samples

/-- The `case SEND` of the main loop: `send(&frame, 10)` on the globals; `send`
writes none of them, the trace is its outside effect. -/
def main_send (d : device_t) : device_t × List event :=
  (d, send d.flags d.frame 10)

/-- The globals at the points where the main loop finds `state == IDLE`
again: after `setup`, after a capture session that ended, after `send`. -/
inductive IdlePoint : device_t → Prop where
  | boot (magic version eflags : Nat) (eframe : frame_t) :
      IdlePoint (setup (power_on magic version eflags eframe))
  | captured (d d1 : device_t) (micros pin : Nat) (samples : List (Nat × Nat))
      (h : IdlePoint d) (hr : receive d micros pin samples = receive_result.confirmed d1) :
      IdlePoint d1
  | expired (d d1 : device_t) (micros pin : Nat) (samples : List (Nat × Nat))
      (h : IdlePoint d) (hr : receive d micros pin samples = receive_result.timed_out d1) :
      IdlePoint d1
  | replayed (d : device_t) (h : IdlePoint d) : IdlePoint (main_send d).1

/-! ## Expected traces and concrete scenarios -/

/-- The trace the replay contract asks of one repetition: for each position
`j` below `length`, in order, a toggle of LED and sender followed by a delay
of the decoded duration; then LED and sender driven low. -/
def send_repetition (f : frame_t) : List event :=
  (List.range f.length).flatMap
    (fun j => [event.led_toggle, event.sender_toggle, event.delay_us (frame_get f j)]) ++
  [event.led_clear, event.sender_clear]

/-- A device whose previous candidate has 20 edges and gap 3500 and whose
working frame holds 19 edges. -/
def device_c14 : device_t :=
  { flags := 0,
    frame := { times := 500 :: List.replicate 15 0, squence := List.replicate 128 0,
               times_count := 1, length := 19 },
    last_frame_length := 20, last_frame_gap := 3500,
    eeprom_magic := MAGIC, eeprom_version := VERSION, eeprom_flags := 0,
    eeprom_frame := frame_zero }

/-- The session state of the C15 counterexample: a session begun at clock
reading 0 with the receiver pin low, right after boot. -/
def session_c15 : receive_t :=
  receive_begin (setup (power_on MAGIC VERSION 0 frame_zero)) 0 0

/-- The two repetitions of the capture scenario as one list of gaps. -/
def two_repetitions (body : List Nat) (g g2 : Nat) : List Nat :=
  body ++ [g] ++ body ++ [g2]

/-- The device of the capture scenarios: first boot, nothing stored. -/
def device_fresh : device_t := power_on MAGIC VERSION 0 frame_zero

/-- The globals with the working frame emptied by `frame_clear`. -/
def with_empty_frame (d : device_t) : device_t :=
  { d with frame := frame_clear d.frame }

/-- Seventeen gaps 200 microseconds apart. -/
def gaps_c12 : List Nat :=
  [100, 300, 500, 700, 900, 1100, 1300, 1500, 1700, 1900, 2100, 2300, 2500, 2700, 2900,
   3100, 3300]

/-! ## Time comparison, clock and device state: theorems -/

theorem abs_diff_eq (a b : Nat) (ha : a < 65536) (hb : b < 65536) :
    abs_diff a b = if a > b then a - b else b - a := by
  unfold abs_diff
  split <;> omega

theorem time_cmp_iff (a b : Nat) (ha : a < 65536) (hb : b < 65536) :
    time_cmp a b = true ↔ within_tol a b := by
  unfold time_cmp within_tol MAX_TIMEDIF
  rw [abs_diff_eq a b ha hb, decide_eq_true_iff]
  split <;> omega

theorem time_cmp_false_iff (a b : Nat) (ha : a < 65536) (hb : b < 65536) :
    time_cmp a b = false ↔ ¬ within_tol a b := by
  rw [← time_cmp_iff a b ha hb]; simp

/-- C7: for 16-bit `a`, `b`, `abs_diff` is the true distance `|a - b|` (no
wraparound), `time_cmp a b` holds exactly when `|a - b| ≤ 100`, the predicate
is reflexive and symmetric, and it is not transitive. -/
theorem time_cmp_spec (a b : Nat) (ha : a < 65536) (hb : b < 65536) :
    ((abs_diff a b : Int) = |(a : Int) - (b : Int)|) ∧
    (time_cmp a b = true ↔ |(a : Int) - (b : Int)| ≤ 100) ∧
    time_cmp a a = true ∧
    time_cmp a b = time_cmp b a ∧
    (∃ x y z : Nat, x < 65536 ∧ y < 65536 ∧ z < 65536 ∧
      time_cmp x y = true ∧ time_cmp y z = true ∧ time_cmp x z = false) := by
  have hd : (abs_diff a b : Int) = |(a : Int) - (b : Int)| := by
    rw [abs_diff_eq a b ha hb]
    split
    · rw [abs_of_nonneg (by omega)]; omega
    · rw [abs_of_nonpos (by omega)]; omega
  refine ⟨hd, ?_, ?_, ?_, ?_⟩
  · rw [← hd]
    unfold time_cmp MAX_TIMEDIF
    rw [decide_eq_true_iff]
    omega
  · unfold time_cmp abs_diff MAX_TIMEDIF
    simp
  · have h1 : abs_diff a b = abs_diff b a := by
      rw [abs_diff_eq a b ha hb, abs_diff_eq b a hb ha]
      split <;> split <;> omega
    unfold time_cmp
    rw [h1]
  · exact ⟨0, 100, 200, by decide, by decide, by decide, by decide, by decide, by decide⟩

/-- Witness for C7 at `a = 1000`, `b = 1100`. -/
theorem time_cmp_spec_witness :
    (1000 < 65536 ∧ 1100 < 65536) ∧ time_cmp 1000 1100 = time_cmp 1100 1000 :=
  ⟨by decide, (time_cmp_spec 1000 1100 (by decide) (by decide)).2.2.2.1⟩

theorem ticks_no_restart (k : Nat) : ∀ m : Nat, m + 10 * k ≤ 4294967295 →
    ticks k m = m + 10 * k ∧ restarts k m = 0 := by
  induction k with
  | zero => intro m _; simp [ticks, restarts]
  | succ k ih =>
    intro m hm
    have ht : TIMER1_COMPA_vect m = m + 10 := by
      unfold TIMER1_COMPA_vect MAX_MICROS
      rw [if_neg (by omega)]; omega
    have := ih (m + 10) (by omega)
    simp only [ticks, restarts, ht, MAX_MICROS]
    rw [if_neg (by omega)]
    omega

theorem restarts_zero_bound (k : Nat) : ∀ m : Nat, m < 4294967296 → restarts k m = 0 →
    k = 0 ∨ m + 10 * k ≤ 4294967295 := by
  induction k with
  | zero => intro m _ _; left; rfl
  | succ k ih =>
    intro m hm hr
    right
    simp only [restarts, MAX_MICROS] at hr
    have h1 : ¬ m > 4294967295 - 10 := by
      intro h; rw [if_pos h] at hr; omega
    rw [if_neg h1] at hr
    have ht : TIMER1_COMPA_vect m = m + 10 := by
      unfold TIMER1_COMPA_vect MAX_MICROS
      rw [if_neg h1]; omega
    rw [ht] at hr
    rcases ih (m + 10) (by omega) (by omega) with h | h
    · subst h; omega
    · omega

/-- C9: for 32-bit `a`, `b`, `time_diff a b` is `a - b` when `a ≥ b` and
`4294967295 - (b - a)` when `a < b` (the reductions modulo `2^32` and `2^64`
of the code never take effect); `time_diff a a = 0`; and when `k` timer
interrupts, none of which restarts the counter, lead from `b` to the later
reading, the difference is `10 * k`. -/
theorem time_diff_spec (a b : Nat) (ha : a < 4294967296) (hb : b < 4294967296) :
    (a ≥ b → time_diff a b = a - b) ∧
    (a < b → time_diff a b = 4294967295 - (b - a)) ∧
    time_diff a a = 0 ∧
    (∀ k : Nat, restarts k b = 0 → time_diff (ticks k b) b = 10 * k) := by
  refine ⟨?_, ?_, ?_, ?_⟩
  · intro h
    unfold time_diff
    rw [if_pos h]; omega
  · intro h
    unfold time_diff MAX_MICROS
    rw [if_neg (by omega)]; omega
  · unfold time_diff
    rw [if_pos (le_refl a)]; omega
  · intro k hr
    rcases restarts_zero_bound k b hb hr with h | h
    · subst h
      simp only [ticks]
      unfold time_diff
      rw [if_pos (le_refl b)]; omega
    · rw [(ticks_no_restart k b h).1]
      unfold time_diff
      rw [if_pos (by omega)]; omega

/-- Witness for C9: three interrupts after the reading 4294967260. -/
theorem time_diff_spec_witness :
    (4294967290 < 4294967296 ∧ 4294967260 < 4294967296) ∧
    time_diff 4294967290 4294967260 = 4294967290 - 4294967260 :=
  ⟨by decide, (time_diff_spec 4294967290 4294967260 (by decide) (by decide)).1 (by decide)⟩

/-- C8: the counter value 4294967290 is reached from the boot value 0 by
timer interrupts; the next interrupt restarts the counter (exactly one
restart, later reading 0 < 4294967290), 10 microseconds have elapsed, and
`time_diff` of the two readings is 5. -/
theorem time_diff_wrap_off_by_five :
    ticks 429496729 0 = 4294967290 ∧
    ticks 1 4294967290 = 0 ∧ restarts 1 4294967290 = 1 ∧
    time_diff 0 4294967290 = 5 ∧ time_diff 0 4294967290 ≠ 10 * 1 := by
  refine ⟨?_, by decide, by decide, by decide, by decide⟩
  have := (ticks_no_restart 429496729 0 (by omega)).1
  omega

/-- C10: `state_set` stores the request when the state is `IDLE` and keeps
the state otherwise; from a busy state no sequence of requests changes the
state (so none makes it `IDLE`), while the main loop's switch leaves `IDLE`
behind once the engine has returned. -/
theorem state_set_guard (s r : state_t) :
    state_set s r = (if s = state_t.IDLE then r else s) ∧
    (∀ rs : List state_t, s ≠ state_t.IDLE → rs.foldl state_set s = s) ∧
    main_switch s = state_t.IDLE := by
  refine ⟨?_, ?_, ?_⟩
  · unfold state_set
    cases s <;> simp
  · intro rs hs
    induction rs with
    | nil => rfl
    | cons x xs ih =>
      have : state_set s x = s := by
        unfold state_set; rw [if_pos hs]
      simp only [List.foldl_cons, this]
      exact ih
  · cases s <;> rfl

/-! ## Frame codec: nibble packing -/

set_option maxRecDepth 1000000 in
theorem nibble_high (s : Fin 256) (idx : Fin 16) :
    (((s.val &&& 0x0f) ||| ((idx.val <<< 4) % 256)) >>> 4) &&& 0x0f = idx.val ∧
    (((s.val &&& 0x0f) ||| ((idx.val <<< 4) % 256)) >>> 0) &&& 0x0f = (s.val >>> 0) &&& 0x0f ∧
    ((s.val &&& 0x0f) ||| ((idx.val <<< 4) % 256)) < 256 := by
  revert s idx; decide

set_option maxRecDepth 1000000 in
theorem nibble_low (s : Fin 256) (idx : Fin 16) :
    (((s.val &&& 0xf0) ||| idx.val) >>> 0) &&& 0x0f = idx.val ∧
    (((s.val &&& 0xf0) ||| idx.val) >>> 4) &&& 0x0f = (s.val >>> 4) &&& 0x0f ∧
    ((s.val &&& 0xf0) ||| idx.val) < 256 := by
  revert s idx; decide

theorem getD_set (l : List Nat) (i j v : Nat) :
    (l.set i v).getD j 0 = if i = j ∧ i < l.length then v else l.getD j 0 := by
  simp only [List.getD_eq_getElem?_getD, List.getElem?_set]
  by_cases h : i = j
  · subst h
    by_cases h2 : i < l.length
    · simp [h2]
    · have h3 : l[i]? = none := List.getElem?_eq_none (by omega)
      simp [h2, h3]
  · simp [h]

theorem getD_lt (l : List Nat) (b : Nat) (hb : 0 < b) (h : ∀ x ∈ l, x < b) (i : Nat) :
    l.getD i 0 < b := by
  by_cases hi : i < l.length
  · rw [List.getD_eq_getElem l 0 hi]
    exact h _ (List.getElem_mem hi)
  · rw [List.getD_eq_getElem?_getD, List.getElem?_eq_none (by omega)]
    simpa using hb

theorem int8_of_small (j : Nat) (h : j < 128) : int8_of j = (j : Int) := by
  unfold int8_of
  have : j % 256 = j := by omega
  rw [this, if_pos h]

theorem idx_of_small (j : Nat) (h : j < 128) : (((j : Int)) % 256).toNat = j := by
  omega

theorem frame_get_index_lt (f : frame_t) (p : Nat) : frame_get_index f p < 16 := by
  unfold frame_get_index
  have h : ∀ x : Nat, x &&& 0x0f < 16 := by
    intro x
    have := Nat.and_pow_two_sub_one_eq_mod x 4
    norm_num at this
    rw [this]; omega
  exact h _

theorem shift_one (p : Nat) : p >>> 1 = p / 2 :=
  Nat.shiftRight_eq_div_pow p 1

theorem frame_add_store_eq (g : frame_t) (idx : Nat) (hidx : idx < 16) (hl : g.length < 256) :
    frame_add_store g (idx : Int) =
      ({ g with squence := g.squence.set (g.length / 2) (store_byte g idx),
                length := g.length + 1 }, true) := by
  have hidx2 : ((idx : Int) % 256).toNat = idx := idx_of_small idx (by omega)
  have hi : g.length / 2 % 256 = g.length / 2 := by omega
  have hl2 : (g.length + 1) % 65536 = g.length + 1 := by omega
  unfold frame_add_store store_byte MAX_PULSES
  rw [if_neg (by omega)]
  simp only [hidx2, shift_one, hi, hl2, Nat.and_one_is_mod]

/-- Effect of the nibble write of `frame_add_store` when the sequence has
room and `idx` is a 4-bit index. -/
theorem frame_add_store_ok (g : frame_t) (idx : Nat) (hidx : idx < 16)
    (hlen : g.squence.length = 128) (hb : ∀ x ∈ g.squence, x < 256)
    (hl : g.length < 256) :
    (frame_add_store g (idx : Int)).2 = true ∧
    (frame_add_store g (idx : Int)).1.times = g.times ∧
    (frame_add_store g (idx : Int)).1.times_count = g.times_count ∧
    (frame_add_store g (idx : Int)).1.length = g.length + 1 ∧
    (frame_add_store g (idx : Int)).1.squence.length = 128 ∧
    (∀ x ∈ (frame_add_store g (idx : Int)).1.squence, x < 256) ∧
    (∀ p : Nat, frame_get_index (frame_add_store g (idx : Int)).1 p =
      if p = g.length then idx else frame_get_index g p) := by
  have hold : g.squence.getD (g.length / 2) 0 < 256 :=
    getD_lt g.squence 256 (by norm_num) hb _
  have hH := nibble_high ⟨_, hold⟩ ⟨idx, hidx⟩
  have hL := nibble_low ⟨_, hold⟩ ⟨idx, hidx⟩
  simp only [] at hH hL
  rw [frame_add_store_eq g idx hidx hl]
  refine ⟨rfl, rfl, rfl, rfl, ?_, ?_, ?_⟩
  · show (g.squence.set (g.length / 2) (store_byte g idx)).length = 128
    rw [List.length_set]; exact hlen
  · intro x hx
    rcases List.mem_or_eq_of_mem_set hx with h | h
    · exact hb x h
    · subst h
      unfold store_byte
      split
      · exact hH.2.2
      · exact hL.2.2
  · intro p
    unfold frame_get_index
    simp only [getD_set, hlen, shift_one, Nat.and_one_is_mod]
    unfold store_byte
    by_cases hp : p = g.length
    · subst hp
      rw [if_pos ⟨rfl, by omega⟩, if_pos rfl]
      by_cases hpar : g.length % 2 ≠ 0
      · rw [if_pos hpar, if_pos hpar]; exact hH.1
      · rw [if_neg hpar, if_neg hpar]; exact hL.1
    · rw [if_neg hp]
      by_cases hbyte : g.length / 2 = p / 2
      · rw [if_pos ⟨hbyte, by omega⟩, ← hbyte]
        by_cases hpar : g.length % 2 ≠ 0
        · have hpp : ¬ (p % 2 ≠ 0) := by omega
          rw [if_pos hpar, if_neg hpp]; exact hH.2.1
        · have hpp : p % 2 ≠ 0 := by omega
          rw [if_neg hpar, if_pos hpp]; exact hL.2.1
      · rw [if_neg (fun h => hbyte h.1)]

theorem frame_add_store_full (g : frame_t) (index : Int) (hl : 256 ≤ g.length) :
    frame_add_store g index = (g, false) := by
  unfold frame_add_store MAX_PULSES
  rw [if_pos hl]

theorem int8_of_ne_neg_one (j : Nat) (h : j < 255) : int8_of j ≠ -1 := by
  unfold int8_of
  have : j % 256 = j := by omega
  rw [this]
  split <;> omega

/-- The search loop returns `-1` exactly when no entry from `i` on matches,
and otherwise the (converted) position of the first matching entry. -/
theorem frame_add_scan_spec (f : frame_t) (t : Nat) (hc : f.times_count < 256) :
    ∀ fuel i : Nat, i + fuel = f.times_count →
      (frame_add_scan f t i fuel = -1 ∧
        ∀ j, i ≤ j → j < f.times_count → time_cmp (f.times.getD j 0) t = false) ∨
      (∃ j, i ≤ j ∧ j < f.times_count ∧ time_cmp (f.times.getD j 0) t = true ∧
        (∀ k, i ≤ k → k < j → time_cmp (f.times.getD k 0) t = false) ∧
        frame_add_scan f t i fuel = int8_of j) := by
  intro fuel
  induction fuel with
  | zero =>
    intro i hi
    left
    exact ⟨rfl, fun j h1 h2 => by omega⟩
  | succ n ih =>
    intro i hi
    have hlt : i < f.times_count := by omega
    have hstep : (i + 1) % 256 = i + 1 := by omega
    unfold frame_add_scan
    rw [if_pos hlt, hstep]
    by_cases hm : time_cmp (f.times.getD i 0) t = true
    · rw [if_pos hm]
      right
      exact ⟨i, le_refl i, hlt, hm, fun k h1 h2 => by omega, rfl⟩
    · rw [if_neg hm]
      have hm2 : time_cmp (f.times.getD i 0) t = false := by simpa using hm
      rcases ih (i + 1) (by omega) with ⟨h1, h2⟩ | ⟨j, h1, h2, h3, h4, h5⟩
      · left
        refine ⟨h1, fun j hj1 hj2 => ?_⟩
        by_cases hji : j = i
        · subst hji; exact hm2
        · exact h2 j (by omega) hj2
      · right
        refine ⟨j, by omega, h2, h3, fun k hk1 hk2 => ?_, h5⟩
        by_cases hki : k = i
        · subst hki; exact hm2
        · exact h4 k (by omega) hk2

/-- The two ways `frame_add` resolves a duration: first matching entry, or no
matching entry (then append when the table has room). -/
theorem frame_add_cases (f : frame_t) (t : Nat) (hc : f.times_count ≤ 16) :
    (∃ j, j < f.times_count ∧ time_cmp (f.times.getD j 0) t = true ∧
      (∀ k, k < j → time_cmp (f.times.getD k 0) t = false) ∧
      frame_add f t = frame_add_store f (j : Int)) ∨
    ((∀ j, j < f.times_count → time_cmp (f.times.getD j 0) t = false) ∧
      frame_add f t =
        if f.times_count ≥ 16 then (f, false)
        else frame_add_store
          { f with times := f.times.set f.times_count t,
                   times_count := f.times_count + 1 } (f.times_count : Int)) := by
  rcases frame_add_scan_spec f t (by omega) f.times_count 0 (by omega) with
    ⟨h1, h2⟩ | ⟨j, _, h2, h3, h4, h5⟩
  · right
    refine ⟨fun j hj => h2 j (Nat.zero_le j) hj, ?_⟩
    unfold frame_add MAX_TIMES
    simp only [h1, if_true]
    by_cases hfull : f.times_count ≥ 16
    · rw [if_pos hfull, if_pos hfull]
    · rw [if_neg hfull, if_neg hfull]
      have e1 : (f.times_count + 1) % 256 = f.times_count + 1 := by omega
      rw [e1, int8_of_small f.times_count (by omega)]
  · left
    refine ⟨j, h2, h3, fun k hk => h4 k (Nat.zero_le k) hk, ?_⟩
    unfold frame_add
    simp only [h5]
    rw [if_neg (int8_of_ne_neg_one j (by omega)), int8_of_small j (by omega)]

theorem WF_times_lt (f : frame_t) (hwf : f.WF) (i : Nat) : f.times.getD i 0 < 65536 :=
  getD_lt f.times 65536 (by norm_num) hwf.2.2.1 i

/-- C1: when `frame_add` succeeds on a frame with `times_count ≤ 16` and
`length < 256`: if some table entry is within 100 of `t`, the index recorded
at position `length` is the smallest such entry and the table is unchanged;
otherwise `t` is appended at `times[times_count]`, `times_count` grows by one
and the new index is recorded.  In both cases `length` grows by one and
`frame_get` at the old `length` returns the resolved entry. -/
theorem frame_add_resolves (f : frame_t) (t : Nat) (hwf : f.WF)
    (hc : f.times_count ≤ 16) (hl : f.length < 256) (ht : t < 65536)
    (hok : (frame_add f t).2 = true) :
    ((∃ i, i < f.times_count ∧ within_tol (f.times.getD i 0) t) →
      ∃ i, i < f.times_count ∧ within_tol (f.times.getD i 0) t ∧
        (∀ k, k < i → ¬ within_tol (f.times.getD k 0) t) ∧
        frame_get_index (frame_add f t).1 f.length = i ∧
        (frame_add f t).1.times = f.times ∧
        (frame_add f t).1.times_count = f.times_count ∧
        frame_get (frame_add f t).1 f.length = f.times.getD i 0) ∧
    ((¬ ∃ i, i < f.times_count ∧ within_tol (f.times.getD i 0) t) →
      (frame_add f t).1.times = f.times.set f.times_count t ∧
      (frame_add f t).1.times.getD f.times_count 0 = t ∧
      (frame_add f t).1.times_count = f.times_count + 1 ∧
      frame_get_index (frame_add f t).1 f.length = f.times_count ∧
      frame_get (frame_add f t).1 f.length = t) ∧
    (frame_add f t).1.length = f.length + 1 := by
  obtain ⟨hlt, hls, hbt, hbs, -, -⟩ := hwf
  have hwf : f.WF := ⟨hlt, hls, hbt, hbs, by omega, by omega⟩
  rcases frame_add_cases f t hc with ⟨j, hj, hm, hmin, heq⟩ | ⟨hno, heq⟩
  · obtain ⟨-, s2, s3, s4, -, -, s7⟩ := frame_add_store_ok f j (by omega) hls hbs hl
    rw [← heq] at s2 s3 s4 s7
    have hidx : frame_get_index (frame_add f t).1 f.length = j := by
      rw [s7 f.length, if_pos rfl]
    refine ⟨fun _ => ⟨j, hj, ?_, ?_, hidx, s2, s3, ?_⟩, fun hnone => ?_, s4⟩
    · exact (time_cmp_iff _ _ (WF_times_lt f hwf j) ht).1 hm
    · intro k hk hw
      have := (time_cmp_iff _ _ (WF_times_lt f hwf k) ht).2 hw
      rw [hmin k hk] at this
      exact Bool.noConfusion this
    · unfold frame_get
      rw [hidx, s2]
    · exact absurd ⟨j, hj, (time_cmp_iff _ _ (WF_times_lt f hwf j) ht).1 hm⟩ hnone
  · by_cases hfull : f.times_count ≥ 16
    · rw [if_pos hfull] at heq
      rw [heq] at hok
      exact Bool.noConfusion hok
    · rw [if_neg hfull] at heq
      obtain ⟨-, s2, s3, s4, -, -, s7⟩ := frame_add_store_ok
        { f with times := f.times.set f.times_count t, times_count := f.times_count + 1 }
        f.times_count (by omega) hls hbs hl
      rw [← heq] at s2 s3 s4 s7
      simp only [] at s2 s3 s4 s7
      have hidx : frame_get_index (frame_add f t).1 f.length = f.times_count := by
        rw [s7 f.length, if_pos rfl]
      have hget : (frame_add f t).1.times.getD f.times_count 0 = t := by
        rw [s2, getD_set, if_pos ⟨rfl, by omega⟩]
      refine ⟨fun ⟨i, hi, hw⟩ => ?_, fun _ => ⟨s2, hget, s3, hidx, ?_⟩, s4⟩
      · have := (time_cmp_iff _ _ (WF_times_lt f hwf i) ht).2 hw
        rw [hno i hi] at this
        exact Bool.noConfusion this
      · unfold frame_get
        rw [hidx, hget]

theorem frame_c1_WF : frame_c1.WF := by
  unfold frame_t.WF frame_c1
  refine ⟨by simp, by simp, ?_, ?_, by decide, by decide⟩
  · intro x hx
    simp only [List.mem_append, List.mem_cons, List.mem_replicate, List.not_mem_nil,
      or_false] at hx
    omega
  · intro x hx
    simp only [List.mem_cons, List.mem_replicate] at hx
    omega

/-- Witness for C1: table `[100, 250]` and `t = 200` (entry 1 is closer, entry
0 is the first within tolerance): the call succeeds and `length` grows. -/
theorem frame_add_resolves_witness :
    frame_c1.times_count ≤ 16 ∧ frame_c1.length < 256 ∧
    (frame_add frame_c1 200).2 = true ∧
    frame_get_index (frame_add frame_c1 200).1 frame_c1.length = 0 ∧
    (frame_add frame_c1 200).1.length = frame_c1.length + 1 :=
  ⟨by decide, by decide, by decide, by decide,
   (frame_add_resolves frame_c1 200 frame_c1_WF (by decide) (by decide) (by decide)
      (by decide)).2.2⟩

/-- C3: on a frame with `times_count ≤ 16` and `length ≤ 256`, `frame_add`
returns false exactly when (no table entry is within 100 of `t` and the table
holds 16 entries) or the sequence holds 256 edges. -/
theorem frame_add_false_iff (f : frame_t) (t : Nat) (hwf : f.WF)
    (hc : f.times_count ≤ 16) (hl : f.length ≤ 256) (ht : t < 65536) :
    (frame_add f t).2 = false ↔
      ((¬ ∃ i, i < f.times_count ∧ within_tol (f.times.getD i 0) t) ∧ f.times_count = 16) ∨
      f.length = 256 := by
  have hls := hwf.2.1
  have hbs := hwf.2.2.2.1
  rcases frame_add_cases f t hc with ⟨j, hj, hm, -, heq⟩ | ⟨hno, heq⟩
  · have hex : ∃ i, i < f.times_count ∧ within_tol (f.times.getD i 0) t :=
      ⟨j, hj, (time_cmp_iff _ _ (WF_times_lt f hwf j) ht).1 hm⟩
    by_cases hfull : f.length = 256
    · rw [heq, frame_add_store_full f _ (by omega)]
      exact ⟨fun _ => Or.inr hfull, fun _ => rfl⟩
    · have s1 := (frame_add_store_ok f j (by omega) hls hbs (by omega)).1
      rw [heq, s1]
      constructor
      · intro h; exact Bool.noConfusion h
      · rintro (⟨h, -⟩ | h)
        · exact absurd hex h
        · exact absurd h hfull
  · have hnex : ¬ ∃ i, i < f.times_count ∧ within_tol (f.times.getD i 0) t := by
      rintro ⟨i, hi, hw⟩
      have := (time_cmp_iff _ _ (WF_times_lt f hwf i) ht).2 hw
      rw [hno i hi] at this
      exact Bool.noConfusion this
    by_cases htab : f.times_count ≥ 16
    · rw [heq, if_pos htab]
      exact ⟨fun _ => Or.inl ⟨hnex, by omega⟩, fun _ => rfl⟩
    · rw [heq, if_neg htab]
      by_cases hfull : f.length = 256
      · rw [frame_add_store_full _ _ (by show 256 ≤ f.length; omega)]
        exact ⟨fun _ => Or.inr hfull, fun _ => rfl⟩
      · have s1 := (frame_add_store_ok
          { f with times := f.times.set f.times_count t, times_count := f.times_count + 1 }
          f.times_count (by omega) hls hbs (by show f.length < 256; omega)).1
        rw [s1]
        constructor
        · intro h; exact Bool.noConfusion h
        · rintro (⟨-, h⟩ | h)
          · omega
          · exact absurd h hfull

theorem frame_c3_WF : frame_c3.WF := by
  unfold frame_t.WF frame_c3
  refine ⟨by simp, by simp, ?_, ?_, by decide, by decide⟩
  · intro x hx
    simp only [List.mem_append, List.mem_cons, List.mem_replicate, List.not_mem_nil,
      or_false] at hx
    omega
  · intro x hx
    simp only [List.mem_replicate] at hx
    omega

/-- Witness for C3: a full sequence makes `frame_add` return false although
200 is within tolerance of the first entry. -/
theorem frame_add_false_iff_witness :
    frame_c3.times_count ≤ 16 ∧ frame_c3.length ≤ 256 ∧ (frame_add frame_c3 200).2 = false :=
  ⟨by decide, by decide,
   (frame_add_false_iff frame_c3 200 frame_c3_WF (by decide) (by decide) (by decide)).2
     (Or.inr (by decide))⟩

set_option maxRecDepth 1000000 in
theorem frame_full_reached :
    (frame_add_all frame_zero (List.replicate 256 1000)).1 = frame_full ∧
    (frame_add_all frame_zero (List.replicate 256 1000)).2 = List.replicate 256 true := by
  decide

/-- C2: on the frame reached by 256 edges of 1000 microseconds (sequence
full, table `[1000]` with room), `frame_add` with 2000 returns false and yet
has stored 2000 as `times[1]` and raised `times_count` from 1 to 2: the frame
is not left unmodified. -/
theorem frame_add_fail_modifies :
    (frame_add frame_full 2000).2 = false ∧
    (frame_add frame_full 2000).1 ≠ frame_full ∧
    frame_full.times_count = 1 ∧ (frame_add frame_full 2000).1.times_count = 2 ∧
    frame_full.times.getD 1 0 = 0 ∧ (frame_add frame_full 2000).1.times.getD 1 0 = 2000 := by
  decide

theorem abs_diff_comm (a b : Nat) : abs_diff a b = abs_diff b a := by
  unfold abs_diff
  split <;> split <;> first | rfl | omega

theorem time_cmp_comm (a b : Nat) : time_cmp a b = time_cmp b a := by
  unfold time_cmp
  rw [abs_diff_comm]

theorem time_cmp_self (a : Nat) : time_cmp a a = true := by
  unfold time_cmp abs_diff MAX_TIMEDIF
  simp

theorem FrameInv_clear (f : frame_t) (h : f.WF) : FrameInv (frame_clear f) := by
  obtain ⟨h1, h2, h3, h4, -, -⟩ := h
  exact
    { wf := ⟨h1, h2, h3, h4, by show 0 < 256; omega, by show 0 < 65536; omega⟩
      count_le := Nat.zero_le _
      length_le := Nat.zero_le _
      index_lt := fun p hp => absurd hp (Nat.not_lt_zero p)
      dedup := fun i j hi _ _ => absurd hi (Nat.not_lt_zero i) }

/-- The nibble write keeps the invariant when the written index is below
`times_count`. -/
theorem FrameInv_store (g : frame_t) (idx : Nat) (hg : FrameInv g) (hidx : idx < g.times_count) :
    FrameInv (frame_add_store g (idx : Int)).1 := by
  by_cases hfull : 256 ≤ g.length
  · rw [frame_add_store_full g _ hfull]; exact hg
  · obtain ⟨h1, h2, h3, h4, h5, h6⟩ := hg.wf
    obtain ⟨-, s2, s3, s4, s5, s6, s7⟩ :=
      frame_add_store_ok g idx (by have := hg.count_le; omega) h2 h4 (by omega)
    refine
      { wf := ⟨by rw [s2]; exact h1, s5, by rw [s2]; exact h3, s6, by rw [s3]; exact h5,
               by rw [s4]; omega⟩
        count_le := by rw [s3]; exact hg.count_le
        length_le := by rw [s4]; omega
        index_lt := ?_
        dedup := by rw [s2, s3]; exact hg.dedup }
    intro p hp
    rw [s7 p, s3]
    rw [s4] at hp
    by_cases hpl : p = g.length
    · rw [if_pos hpl]; exact hidx
    · rw [if_neg hpl]; exact hg.index_lt p (by omega)

/-- Appending an unmatched duration to a table with room keeps the
invariant. -/
theorem FrameInv_append (f : frame_t) (t : Nat) (hf : FrameInv f) (ht : t < 65536)
    (hno : ∀ j, j < f.times_count → time_cmp (f.times.getD j 0) t = false)
    (hroom : f.times_count < 16) :
    FrameInv { f with times := f.times.set f.times_count t,
                      times_count := f.times_count + 1 } := by
  obtain ⟨h1, h2, h3, h4, h5, h6⟩ := hf.wf
  refine
    { wf := ⟨by show (f.times.set f.times_count t).length = 16; rw [List.length_set]; exact h1,
             h2, ?_, h4, by show f.times_count + 1 < 256; omega, h6⟩
      count_le := by show f.times_count + 1 ≤ 16; omega
      length_le := hf.length_le
      index_lt := ?_
      dedup := ?_ }
  · intro x hx
    rcases List.mem_or_eq_of_mem_set hx with h | h
    · exact h3 x h
    · rw [h]; exact ht
  · intro p hp
    have := hf.index_lt p hp
    show frame_get_index f p < f.times_count + 1
    omega
  · intro i j hi hj hij
    show time_cmp ((f.times.set f.times_count t).getD i 0)
      ((f.times.set f.times_count t).getD j 0) = false
    have hi2 : i < f.times_count + 1 := hi
    have hj2 : j < f.times_count + 1 := hj
    rw [getD_set, getD_set]
    by_cases hic : f.times_count = i
    · have hjc : ¬ f.times_count = j := by omega
      rw [if_pos ⟨hic, by omega⟩, if_neg (fun h => hjc h.1), time_cmp_comm]
      exact hno j (by omega)
    · rw [if_neg (fun h => hic h.1)]
      by_cases hjc : f.times_count = j
      · rw [if_pos ⟨hjc, by omega⟩]
        exact hno i (by omega)
      · rw [if_neg (fun h => hjc h.1)]
        exact hf.dedup i j (by omega) (by omega) hij

/-- Every `frame_add` call, whatever it returns, keeps the invariant. -/
theorem FrameInv_frame_add (f : frame_t) (t : Nat) (hf : FrameInv f) (ht : t < 65536) :
    FrameInv (frame_add f t).1 := by
  rcases frame_add_cases f t hf.count_le with ⟨j, hj, -, -, heq⟩ | ⟨hno, heq⟩
  · rw [heq]; exact FrameInv_store f j hf hj
  · rw [heq]
    by_cases hfull : f.times_count ≥ 16
    · rw [if_pos hfull]; exact hf
    · rw [if_neg hfull]
      exact FrameInv_store _ f.times_count (FrameInv_append f t hf ht hno (by omega))
        (by show f.times_count < f.times_count + 1; omega)

theorem FrameInv_of_Reachable (f : frame_t) (h : Reachable f) : FrameInv f := by
  induction h with
  | clear f hwf => exact FrameInv_clear f hwf
  | add f t ht _ ih => exact FrameInv_frame_add f t ih ht

/-- C5: in every frame reachable from `frame_clear` by `frame_add` calls
(successful or failed), two distinct table entries below `times_count` differ
by more than 100: `time_cmp` of them is false. -/
theorem dedup_invariant (f : frame_t) (h : Reachable f) (i j : Nat)
    (hi : i < f.times_count) (hj : j < f.times_count) (hij : i ≠ j) :
    time_cmp (f.times.getD i 0) (f.times.getD j 0) = false ∧
    ¬ within_tol (f.times.getD i 0) (f.times.getD j 0) := by
  have hinv := FrameInv_of_Reachable f h
  have h1 := hinv.dedup i j hi hj hij
  exact ⟨h1, (time_cmp_false_iff _ _ (WF_times_lt f hinv.wf i) (WF_times_lt f hinv.wf j)).1 h1⟩

/-- C6: in every frame reachable from `frame_clear` by `frame_add` calls,
`times_count ≤ 16`, `length ≤ 256`, and every position `i < length` holds an
index below `times_count`; so `frame_get` reads sequence byte `i / 2 < 128`
inside `squence` and a `times` slot below `times_count`, inside `times`. -/
theorem bounds_invariant (f : frame_t) (h : Reachable f) :
    f.times_count ≤ 16 ∧ f.length ≤ 256 ∧
    ∀ i, i < f.length →
      frame_get_index f i < f.times_count ∧
      i >>> 1 < 128 ∧ i >>> 1 < f.squence.length ∧
      frame_get_index f i < f.times.length := by
  have hinv := FrameInv_of_Reachable f h
  obtain ⟨h1, h2, -, -, -, -⟩ := hinv.wf
  refine ⟨hinv.count_le, hinv.length_le, fun i hi => ?_⟩
  have hidx := hinv.index_lt i hi
  have hc := hinv.count_le
  have hl := hinv.length_le
  rw [shift_one, h1, h2]
  exact ⟨hidx, by omega, by omega, by omega⟩

/-- Table entries that are pairwise out of tolerance and all drawn from `l`
number at most the distinct values of `l`. -/
theorem table_count_le (g : Nat → Nat) (n : Nat) (l : List Nat)
    (hd : ∀ i j, i < n → j < n → i ≠ j → time_cmp (g i) (g j) = false)
    (hin : ∀ i, i < n → g i ∈ l) : n ≤ l.toFinset.card := by
  have h : (Finset.range n).card ≤ l.toFinset.card := by
    apply Finset.card_le_card_of_injOn g
    · intro a ha
      rw [Finset.mem_range] at ha
      exact List.mem_toFinset.2 (hin a ha)
    · intro a ha b hb hab
      have ha2 : a < n := by simpa using ha
      have hb2 : b < n := by simpa using hb
      by_contra hne
      have := hd a b ha2 hb2 hne
      rw [hab, time_cmp_self] at this
      exact Bool.noConfusion this
  rwa [Finset.card_range] at h

/-- What a `frame_add` call does to a frame satisfying the invariant when the
sequence has room and an unmatched duration finds room in the table. -/
theorem frame_add_effect (f : frame_t) (t : Nat) (hf : FrameInv f) (ht : t < 65536)
    (hl : f.length < 256)
    (hroom : (∀ j, j < f.times_count → time_cmp (f.times.getD j 0) t = false) →
      f.times_count < 16) :
    (frame_add f t).2 = true ∧
    (frame_add f t).1.length = f.length + 1 ∧
    (∀ p, p < f.length → frame_get (frame_add f t).1 p = frame_get f p) ∧
    within_tol (frame_get (frame_add f t).1 f.length) t ∧
    (∀ i, i < (frame_add f t).1.times_count →
      (i < f.times_count ∧ (frame_add f t).1.times.getD i 0 = f.times.getD i 0) ∨
      (frame_add f t).1.times.getD i 0 = t) := by
  obtain ⟨h1, h2, h3, h4, h5, h6⟩ := hf.wf
  rcases frame_add_cases f t hf.count_le with ⟨j, hj, hm, -, heq⟩ | ⟨hno, heq⟩
  · obtain ⟨s1, s2, s3, s4, -, -, s7⟩ :=
      frame_add_store_ok f j (by have := hf.count_le; omega) h2 h4 hl
    rw [← heq] at s1 s2 s3 s4 s7
    refine ⟨s1, s4, fun p hp => ?_, ?_, fun i hi => ?_⟩
    · unfold frame_get
      rw [s7 p, if_neg (by omega), s2]
    · unfold frame_get
      rw [s7 f.length, if_pos rfl, s2]
      exact (time_cmp_iff _ _ (WF_times_lt f hf.wf j) ht).1 hm
    · rw [s3] at hi
      rw [s2]
      exact Or.inl ⟨hi, rfl⟩
  · have hr := hroom hno
    rw [if_neg (by omega)] at heq
    obtain ⟨s1, s2, s3, s4, -, -, s7⟩ := frame_add_store_ok
      { f with times := f.times.set f.times_count t, times_count := f.times_count + 1 }
      f.times_count (by omega) h2 h4 hl
    rw [← heq] at s1 s2 s3 s4 s7
    simp only [] at s2 s3 s4 s7
    refine ⟨s1, s4, fun p hp => ?_, ?_, fun i hi => ?_⟩
    · have hidx := hf.index_lt p hp
      unfold frame_get
      rw [s7 p, if_neg (by omega), s2, getD_set]
      have e : frame_get_index
          { f with times := f.times.set f.times_count t, times_count := f.times_count + 1 } p =
          frame_get_index f p := rfl
      rw [e, if_neg (fun h => by omega)]
    · unfold frame_get
      rw [s7 f.length, if_pos rfl, s2, getD_set, if_pos ⟨rfl, by omega⟩]
      exact ⟨by omega, by omega⟩
    · rw [s3] at hi
      rw [s2, getD_set]
      by_cases hic : f.times_count = i
      · right; rw [if_pos ⟨hic, by omega⟩]
      · left; rw [if_neg (fun h => hic h.1)]; exact ⟨by omega, rfl⟩

/-- One encoding step of the round trip: the frame decodes `pre`, its table
is drawn from `pre`, and `pre ++ [t]` has at most 16 distinct values. -/
theorem round_trip_step (f : frame_t) (pre : List Nat) (t : Nat) (hf : FrameInv f)
    (ht : t < 65536) (hlen : f.length = pre.length)
    (hdec : ∀ p, p < pre.length → within_tol (frame_get f p) (pre.getD p 0))
    (htab : ∀ i, i < f.times_count → f.times.getD i 0 ∈ pre)
    (hcard : (pre ++ [t]).toFinset.card ≤ 16) (hroom : pre.length < 256) :
    (frame_add f t).2 = true ∧
    (frame_add f t).1.length = (pre ++ [t]).length ∧
    (∀ p, p < (pre ++ [t]).length →
      within_tol (frame_get (frame_add f t).1 p) ((pre ++ [t]).getD p 0)) ∧
    (∀ i, i < (frame_add f t).1.times_count → (frame_add f t).1.times.getD i 0 ∈ pre ++ [t]) := by
  have hr : (∀ j, j < f.times_count → time_cmp (f.times.getD j 0) t = false) →
      f.times_count < 16 := by
    intro hno
    have h := table_count_le (fun i => if i < f.times_count then f.times.getD i 0 else t)
      (f.times_count + 1) (pre ++ [t]) ?_ ?_
    · omega
    · intro i j hi hj hij
      simp only []
      by_cases hic : i < f.times_count
      · rw [if_pos hic]
        by_cases hjc : j < f.times_count
        · rw [if_pos hjc]; exact hf.dedup i j hic hjc hij
        · rw [if_neg hjc]; exact hno i hic
      · rw [if_neg hic]
        have hjc : j < f.times_count := by omega
        rw [if_pos hjc, time_cmp_comm]; exact hno j hjc
    · intro i hi
      simp only []
      by_cases hic : i < f.times_count
      · rw [if_pos hic]; exact List.mem_append_left _ (htab i hic)
      · rw [if_neg hic]; exact List.mem_append_right _ (List.mem_singleton_self t)
  obtain ⟨e1, e2, e3, e4, e5⟩ := frame_add_effect f t hf ht (by omega) hr
  refine ⟨e1, by rw [e2, hlen, List.length_append]; rfl, fun p hp => ?_, fun i hi => ?_⟩
  · rw [List.length_append] at hp
    have hp2 : p < pre.length + 1 := hp
    by_cases hpl : p < pre.length
    · rw [List.getD_append _ _ _ _ hpl, e3 p (by omega)]
      exact hdec p hpl
    · have hpe : p = pre.length := by omega
      rw [List.getD_append_right _ _ _ _ (by omega), hpe, ← hlen]
      simpa using e4
  · rcases e5 i hi with ⟨hic, h⟩ | h
    · rw [h]; exact List.mem_append_left _ (htab i hic)
    · rw [h]; exact List.mem_append_right _ (List.mem_singleton_self t)

/-- Encoding a list of durations after a decoded prefix. -/
theorem frame_add_all_decodes : ∀ (ds pre : List Nat) (f : frame_t), FrameInv f →
    f.length = pre.length →
    (∀ p, p < pre.length → within_tol (frame_get f p) (pre.getD p 0)) →
    (∀ i, i < f.times_count → f.times.getD i 0 ∈ pre) →
    (∀ d ∈ ds, d < 65536) →
    (pre ++ ds).toFinset.card ≤ 16 → (pre ++ ds).length ≤ 256 →
    (frame_add_all f ds).2 = List.replicate ds.length true ∧
    (frame_add_all f ds).1.length = (pre ++ ds).length ∧
    (∀ p, p < (pre ++ ds).length →
      within_tol (frame_get (frame_add_all f ds).1 p) ((pre ++ ds).getD p 0)) := by
  intro ds
  induction ds with
  | nil =>
    intro pre f _ hlen hdec _ _ _ _
    simp only [List.append_nil, frame_add_all, List.length_nil, List.replicate_zero]
    exact ⟨trivial, hlen, hdec⟩
  | cons t ts ih =>
    intro pre f hf hlen hdec htab hds hcard htot
    have ht : t < 65536 := hds t (List.mem_cons_self t ts)
    have hsub : (pre ++ [t]).toFinset ⊆ (pre ++ t :: ts).toFinset := by
      intro x hx
      simp only [List.mem_toFinset, List.mem_append, List.mem_cons, List.mem_singleton,
        List.not_mem_nil, or_false] at hx ⊢
      tauto
    have hc1 : (pre ++ [t]).toFinset.card ≤ 16 := le_trans (Finset.card_le_card hsub) hcard
    rw [List.length_append, List.length_cons] at htot
    obtain ⟨s1, s2, s3, s4⟩ := round_trip_step f pre t hf ht hlen hdec htab hc1 (by omega)
    have hassoc : pre ++ t :: ts = (pre ++ [t]) ++ ts := List.append_cons pre t ts
    have hih := ih (pre ++ [t]) (frame_add f t).1 (FrameInv_frame_add f t hf ht) s2 s3 s4
      (fun d hd => hds d (List.mem_cons_of_mem t hd))
      (by rw [← hassoc]; exact hcard)
      (by rw [List.length_append, List.length_append]; simp only [List.length_singleton]; omega)
    rw [← hassoc] at hih
    obtain ⟨i1, i2, i3⟩ := hih
    refine ⟨?_, i2, i3⟩
    show (frame_add f t).2 :: (frame_add_all (frame_add f t).1 ts).2 =
      List.replicate (ts.length + 1) true
    rw [s1, i1]; rfl

/-- C4: for a list of at most 256 16-bit durations taking at most 16 distinct
values, `frame_add` for each duration in order on a cleared frame returns true
every time, leaves `length` equal to the number of durations, and every
position decodes to a value within 100 of the duration fed. -/
theorem round_trip (f0 : frame_t) (ds : List Nat) (hwf : f0.WF) (hn : ds.length ≤ 256)
    (h16 : ∀ d ∈ ds, d < 65536) (hdist : ds.toFinset.card ≤ 16) :
    (frame_add_all (frame_clear f0) ds).2 = List.replicate ds.length true ∧
    (frame_add_all (frame_clear f0) ds).1.length = ds.length ∧
    (∀ i, i < ds.length →
      within_tol (frame_get (frame_add_all (frame_clear f0) ds).1 i) (ds.getD i 0)) := by
  have h := frame_add_all_decodes ds [] (frame_clear f0) (FrameInv_clear f0 hwf) rfl
    (fun p hp => absurd hp (Nat.not_lt_zero p))
    (fun i hi => absurd hi (Nat.not_lt_zero i)) h16
    (by simpa using hdist) (by simpa using hn)
  simpa using h

theorem frame_zero_WF : frame_zero.WF := by
  unfold frame_t.WF frame_zero
  refine ⟨by simp, by simp, ?_, ?_, by decide, by decide⟩
  · intro x hx
    simp only [List.mem_replicate] at hx
    omega
  · intro x hx
    simp only [List.mem_replicate] at hx
    omega

/-- Witness for C4: five durations with four distinct values, 200 and 95
falling within tolerance of the entry 100. -/
theorem round_trip_witness :
    [100, 250, 200, 500, 95].length ≤ 256 ∧
    [100, 250, 200, 500, 95].toFinset.card ≤ 16 ∧
    (frame_add_all (frame_clear frame_zero) [100, 250, 200, 500, 95]).2 =
      [true, true, true, true, true] ∧
    (frame_add_all (frame_clear frame_zero) [100, 250, 200, 500, 95]).1.length = 5 :=
  ⟨by decide, by decide,
   (round_trip frame_zero [100, 250, 200, 500, 95] frame_zero_WF (by decide) (by decide)
      (by decide)).1,
   (round_trip frame_zero [100, 250, 200, 500, 95] frame_zero_WF (by decide) (by decide)
      (by decide)).2.1⟩

theorem frame_two_Reachable : Reachable frame_two :=
  Reachable.add _ 250 (by decide)
    (Reachable.add _ 100 (by decide) (Reachable.clear frame_zero frame_zero_WF))

/-- Witness for C5: the two table entries 100 and 250 of `frame_two`. -/
theorem dedup_invariant_witness :
    (0 < frame_two.times_count ∧ 1 < frame_two.times_count) ∧
    time_cmp (frame_two.times.getD 0 0) (frame_two.times.getD 1 0) = false :=
  ⟨by decide,
   (dedup_invariant frame_two frame_two_Reachable 0 1 (by decide) (by decide) (by decide)).1⟩

/-- Witness for C6: the bounds on `frame_two`. -/
theorem bounds_invariant_witness :
    frame_two.times_count ≤ 16 ∧ frame_two.length ≤ 256 :=
  ⟨(bounds_invariant frame_two frame_two_Reachable).1,
   (bounds_invariant frame_two frame_two_Reachable).2.1⟩

/-- Counter values reached from a multiple of 10 not above 4294967290 stay
multiples of 10 not above 4294967290. -/
theorem ticks_grid (k : Nat) : ∀ m : Nat, m % 10 = 0 → m ≤ 4294967290 →
    ticks k m % 10 = 0 ∧ ticks k m ≤ 4294967290 := by
  induction k with
  | zero => intro m h1 h2; exact ⟨h1, h2⟩
  | succ k ih =>
    intro m h1 h2
    simp only [ticks]
    by_cases hr : m > MAX_MICROS - 10
    · have ht : TIMER1_COMPA_vect m = 0 := by
        unfold TIMER1_COMPA_vect; rw [if_pos hr]
      rw [ht]; exact ih 0 (by omega) (by omega)
    · have ht : TIMER1_COMPA_vect m = m + 10 := by
        unfold TIMER1_COMPA_vect; rw [if_neg hr]
        unfold MAX_MICROS at hr; omega
      unfold MAX_MICROS at hr
      rw [ht]; exact ih (m + 10) (by omega) (by omega)

/-- The counter has period 4294967300: after `k` interrupts with exactly one
restart the reading is `m + 10 * k - 4294967300`. -/
theorem ticks_one_restart (k : Nat) : ∀ m : Nat, m % 10 = 0 → m ≤ 4294967290 →
    restarts k m = 1 → ticks k m + 4294967300 = m + 10 * k := by
  induction k with
  | zero => intro m _ _ h; simp [restarts] at h
  | succ k ih =>
    intro m h1 h2 hr
    simp only [ticks]
    simp only [restarts] at hr
    by_cases hw : m > MAX_MICROS - 10
    · have ht : TIMER1_COMPA_vect m = 0 := by
        unfold TIMER1_COMPA_vect; rw [if_pos hw]
      rw [if_pos hw, ht] at hr
      rw [ht]
      unfold MAX_MICROS at hw
      have hr0 : restarts k 0 = 0 := by omega
      rcases restarts_zero_bound k 0 (by omega) hr0 with h | h
      · subst h; simp only [ticks]; omega
      · have := (ticks_no_restart k 0 h).1
        omega
    · have ht : TIMER1_COMPA_vect m = m + 10 := by
        unfold TIMER1_COMPA_vect; rw [if_neg hw]
        unfold MAX_MICROS at hw; omega
      rw [if_neg hw, ht] at hr
      rw [ht]
      unfold MAX_MICROS at hw
      have := ih (m + 10) (by omega) (by omega) (by omega)
      omega

/-- Across one restart `time_diff` is always 5 short of the elapsed time: for
a reading `earlier` reached from 0 and `k` interrupts with exactly one restart
that lead to a reading below `earlier`, the result is `10 * k - 5`. -/
theorem time_diff_one_wrap (n k : Nat) (hone : restarts k (ticks n 0) = 1)
    (hlt : ticks k (ticks n 0) < ticks n 0) :
    time_diff (ticks k (ticks n 0)) (ticks n 0) + 5 = 10 * k := by
  obtain ⟨g1, g2⟩ := ticks_grid n 0 (by omega) (by omega)
  have h := ticks_one_restart k (ticks n 0) g1 g2 hone
  unfold time_diff MAX_MICROS
  rw [if_neg (by omega)]
  omega

/-- C17: on a 32-bit counter value `m` the timer interrupt yields `m + 10`
when `m + 10 ≤ 4294967295` and 0 otherwise, and the result is again a 32-bit
value; every value reached from the boot value 0 by any number of interrupts
is a multiple of 10 not exceeding 4294967290. -/
theorem timer_tick_spec (m : Nat) (hm : m < 4294967296) :
    (m + 10 ≤ 4294967295 → TIMER1_COMPA_vect m = m + 10) ∧
    (¬ m + 10 ≤ 4294967295 → TIMER1_COMPA_vect m = 0) ∧
    TIMER1_COMPA_vect m < 4294967296 ∧
    (∀ n : Nat, ticks n timer_start % 10 = 0 ∧ ticks n timer_start ≤ 4294967290) := by
  refine ⟨fun h => ?_, fun h => ?_, ?_, fun n => ?_⟩
  · unfold TIMER1_COMPA_vect MAX_MICROS
    rw [if_neg (by omega)]; omega
  · unfold TIMER1_COMPA_vect MAX_MICROS
    rw [if_pos (by omega)]
  · unfold TIMER1_COMPA_vect MAX_MICROS
    split <;> omega
  · exact ticks_grid n 0 (by omega) (by omega)

/-- Witness for C17 at the last value before the restart. -/
theorem timer_tick_spec_witness :
    4294967290 < 4294967296 ∧ TIMER1_COMPA_vect 4294967290 = 0 :=
  ⟨by decide, (timer_tick_spec 4294967290 (by decide)).2.1 (by decide)⟩

theorem delay_us_loop_steps (fuel : Nat) : ∀ count : Nat, count < 65536 →
    count / 10 + 1 ≤ fuel →
    delay_us_loop fuel count = some (max 1 ((count + 9) / 10)) := by
  induction fuel with
  | zero => intro count _ h; omega
  | succ n ih =>
    intro count hc hf
    by_cases h10 : count ≤ 10
    · have e : max 1 ((count + 9) / 10) = 1 := by omega
      simp only [delay_us_loop, if_pos h10, e]
    · have e : (count + 65536 - 10) % 65536 = count - 10 := by omega
      have e2 : max 1 ((count - 10 + 9) / 10) + 1 = max 1 ((count + 9) / 10) := by omega
      simp only [delay_us_loop, if_neg h10, e, ih (count - 10) (by omega) (by omega),
        Option.map_some', e2]

theorem delay_ms_loop_steps (fuel : Nat) : ∀ count : Nat, count < 65536 →
    count / 10 + 1 ≤ fuel →
    delay_ms_loop fuel count = some (max 1 ((count + 9) / 10)) := by
  induction fuel with
  | zero => intro count _ h; omega
  | succ n ih =>
    intro count hc hf
    by_cases h10 : count ≤ 10
    · have e : max 1 ((count + 9) / 10) = 1 := by omega
      simp only [delay_ms_loop, if_pos h10, e]
    · have e : (count + 65536 - 10) % 65536 = count - 10 := by omega
      have e2 : max 1 ((count - 10 + 9) / 10) + 1 = max 1 ((count + 9) / 10) := by omega
      simp only [delay_ms_loop, if_neg h10, e, ih (count - 10) (by omega) (by omega),
        Option.map_some', e2]

/-- C20: for a 16-bit `count` the loop of `delay_us` reaches its `break`
within `count / 10 + 1` passes, and with any bound on the passes at least that
large it makes exactly `max 1 ⌈count / 10⌉` busy-wait steps; the loop of
`delay_ms` does the same. -/
theorem delay_loop_steps (count fuel : Nat) (hc : count < 65536)
    (hf : count / 10 + 1 ≤ fuel) :
    delay_us_loop fuel count = some (max 1 ((count + 9) / 10)) ∧
    delay_ms_loop fuel count = some (max 1 ((count + 9) / 10)) :=
  ⟨delay_us_loop_steps fuel count hc hf, delay_ms_loop_steps fuel count hc hf⟩

/-- Witness for C20: `delay_us(95)` makes ten steps, `delay_us(0)` one. -/
theorem delay_loop_steps_witness :
    (95 < 65536 ∧ 95 / 10 + 1 ≤ 10) ∧ delay_us_loop 10 95 = some 10 ∧
    delay_us_loop 1 0 = some 1 :=
  ⟨by decide, (delay_loop_steps 95 10 (by decide) (by decide)).1,
   (delay_loop_steps 0 1 (by decide) (by decide)).1⟩

/-- C16 fails at `t = 95`: `delay_us(95)` waits 100 microseconds. -/
theorem delay_us_wait_not_exact :
    delay_us_wait 10 95 = some 100 ∧ delay_us_wait 10 95 ≠ some 95 := by
  decide

/-- C16, amended: for a 16-bit `t`, `delay_us(t)` waits `10 * max 1 ⌈t / 10⌉`
microseconds, which is exactly `t` when `t` is a positive multiple of 10 and
otherwise `t` rounded up to the next multiple of 10 (10 for `t = 0`). -/
theorem delay_us_wait_rounds_up (t fuel : Nat) (ht : t < 65536) (hf : t / 10 + 1 ≤ fuel) :
    delay_us_wait fuel t = some (10 * max 1 ((t + 9) / 10)) ∧
    (0 < t → t % 10 = 0 → delay_us_wait fuel t = some t) ∧
    (0 < t → ∃ w, delay_us_wait fuel t = some w ∧ t ≤ w ∧ w < t + 10 ∧ w % 10 = 0) ∧
    (t = 0 → delay_us_wait fuel t = some 10) := by
  have h : delay_us_wait fuel t = some (10 * max 1 ((t + 9) / 10)) := by
    unfold delay_us_wait
    rw [delay_us_loop_steps fuel t ht hf]
    rfl
  refine ⟨h, fun h0 hm => ?_, fun h0 => ⟨_, h, ?_⟩, fun h0 => ?_⟩
  · rw [h]; congr 1; omega
  · omega
  · rw [h]; congr 1; omega

/-- Witness for C16 (amended): `delay_us(560)` waits 560 microseconds. -/
theorem delay_us_wait_rounds_up_witness :
    (560 < 65536 ∧ 560 / 10 + 1 ≤ 57) ∧ delay_us_wait 57 560 = some 560 :=
  ⟨by decide, (delay_us_wait_rounds_up 560 57 (by decide) (by decide)).2.1 (by decide)
    (by decide)⟩

theorem send_inner_eq (f : frame_t) (hl : f.length < 65536) :
    ∀ fuel j : Nat, j + fuel = f.length →
      send_inner f j fuel = (List.range' j fuel).flatMap
        (fun j => [event.led_toggle, event.sender_toggle, event.delay_us (frame_get f j)]) := by
  intro fuel
  induction fuel with
  | zero => intro j _; rfl
  | succ n ih =>
    intro j hj
    have h1 : j < f.length := by omega
    have h2 : (j + 1) % 65536 = j + 1 := by omega
    simp only [send_inner, if_pos h1, h2, ih (j + 1) (by omega), List.range'_succ,
      List.flatMap_cons]

theorem send_outer_eq (f : frame_t) (rep : Nat) (hl : f.length < 65536) (hr : rep < 256) :
    ∀ fuel i : Nat, i + fuel = rep →
      send_outer f rep i fuel = (List.replicate fuel (send_repetition f)).flatten := by
  intro fuel
  induction fuel with
  | zero => intro i _; rfl
  | succ n ih =>
    intro i hi
    have h1 : i < rep := by omega
    have h2 : (i + 1) % 256 = i + 1 := by omega
    simp only [send_outer, if_pos h1, h2, ih (i + 1) (by omega), List.replicate_succ,
      List.flatten_cons, send_repetition, send_inner_eq f hl f.length 0 (by omega),
      List.range_eq_range', List.append_assoc]

theorem sender_level_clear (xs : List event) : ∀ b : Bool,
    sender_level b (xs ++ [event.led_clear, event.sender_clear]) = false := by
  induction xs with
  | nil => intro b; rfl
  | cons x xs ih =>
    intro b
    cases x <;> exact ih _

theorem replicate_flatten_succ (k : Nat) (xs : List event) :
    (List.replicate (k + 1) xs).flatten = (List.replicate k xs).flatten ++ xs := by
  induction k with
  | zero => simp
  | succ n ih =>
    have e : (List.replicate (n + 1 + 1) xs).flatten =
        xs ++ (List.replicate (n + 1) xs).flatten := by
      rw [List.replicate_succ, List.flatten_cons]
    have e2 : (List.replicate (n + 1) xs).flatten = xs ++ (List.replicate n xs).flatten := by
      rw [List.replicate_succ, List.flatten_cons]
    have e3 : (List.replicate n xs).flatten ++ xs = xs ++ (List.replicate n xs).flatten :=
      ih.symm.trans e2
    rw [e, ih, ← List.append_assoc, ← e3]

theorem sender_toggles_inner (f : frame_t) (n : Nat) :
    (((List.range n).flatMap
      (fun j => [event.led_toggle, event.sender_toggle, event.delay_us (frame_get f j)])).count
        event.sender_toggle) = n := by
  induction n with
  | zero => rfl
  | succ n ih =>
    rw [List.range_succ, List.flatMap_append, List.count_append, ih]
    simp [List.flatMap, List.count_cons]

/-- C13: with bit 0 of `flags` clear, `send` only calls `led_blink` with 3
blinks and toggles nothing.  With the bit set, after driving LED and sender
low it runs `r` repetitions, each the `length` toggles of LED and sender, the
one at position `j` followed by `delay_us(frame_get(f, j))`, in order, and
then LED and sender driven low; the sender is low at the start and after
every repetition. -/
theorem send_trace (flags : Nat) (f : frame_t) (r : Nat) (hl : f.length < 65536)
    (hr : r < 256) :
    (flags &&& FLAGS_FRAME = 0 →
      send flags f r = [event.led_blink BLINK_INTERVAL 3] ∧
      event.sender_toggle ∉ send flags f r) ∧
    (flags &&& FLAGS_FRAME ≠ 0 →
      send flags f r =
        [event.led_clear, event.sender_clear] ++
          (List.replicate r (send_repetition f)).flatten ∧
      ∀ k, k ≤ r → ∀ b : Bool,
        sender_level b ([event.led_clear, event.sender_clear] ++
          (List.replicate k (send_repetition f)).flatten) = false) ∧
    (send_repetition f).count event.sender_toggle = f.length := by
  refine ⟨fun h => ?_, fun h => ⟨?_, fun k _ b => ?_⟩, ?_⟩
  · have e : send flags f r = [event.led_blink BLINK_INTERVAL 3] := by
      unfold send; rw [if_pos h]
    rw [e]
    exact ⟨rfl, by simp⟩
  · unfold send
    rw [if_neg h, send_outer_eq f r hl hr r 0 (by omega)]
  · cases k with
    | zero => rfl
    | succ n =>
      rw [replicate_flatten_succ]
      unfold send_repetition
      rw [← List.append_assoc, ← List.append_assoc]
      exact sender_level_clear _ b
  · unfold send_repetition
    rw [List.count_append, sender_toggles_inner]
    simp [List.count_cons]

/-- Witness for C13: replaying `frame_two` (durations 100 and 250) twice. -/
theorem send_trace_witness :
    (frame_two.length < 65536 ∧ 2 < 256 ∧ 1 &&& FLAGS_FRAME ≠ 0) ∧
    send 1 frame_two 2 =
      [event.led_clear, event.sender_clear] ++
        (List.replicate 2 (send_repetition frame_two)).flatten ∧
    send_repetition frame_two =
      [event.led_toggle, event.sender_toggle, event.delay_us 100,
       event.led_toggle, event.sender_toggle, event.delay_us 250,
       event.led_clear, event.sender_clear] :=
  ⟨by decide, ((send_trace 1 frame_two 2 (by decide) (by decide)).2.1 (by decide)).1,
   by decide⟩

/-- C14: at a level-change step where, after the add, the working frame has
at least 20 edges and the gap exceeds 3000, the step confirms exactly when
`last_frame_length` equals the working frame's length and `last_frame_gap` is
within 100 of the gap (the confirmed frame being the working frame); when it
does not confirm, `last_frame_length` and `last_frame_gap` become the working
frame's length and the gap and the working frame is cleared: it is
`frame_clear` of the frame after the add, with `length = 0` and
`times_count = 0`.  At a step with fewer than 20 edges or a gap of at most
3000 the step does not confirm, leaves the previous candidate as it was and
keeps the working frame as the add left it. -/
theorem receive_edge_decision (d : device_t) (time : Nat) (hg : d.last_frame_gap < 65536)
    (ht : time < 65536) :
    ((receive_add d.frame time).length ≥ 20 ∧ time > 3000 →
      ((receive_edge d time).2 = true ↔
        d.last_frame_length = (receive_add d.frame time).length ∧
        within_tol d.last_frame_gap time) ∧
      ((receive_edge d time).2 = true →
        (receive_edge d time).1.frame = receive_add d.frame time) ∧
      ((receive_edge d time).2 = false →
        (receive_edge d time).1.last_frame_length = (receive_add d.frame time).length ∧
        (receive_edge d time).1.last_frame_gap = time ∧
        (receive_edge d time).1.frame = frame_clear (receive_add d.frame time) ∧
        (receive_edge d time).1.frame.length = 0 ∧
        (receive_edge d time).1.frame.times_count = 0)) ∧
    (¬ ((receive_add d.frame time).length ≥ 20 ∧ time > 3000) →
      (receive_edge d time).2 = false ∧
      (receive_edge d time).1.last_frame_length = d.last_frame_length ∧
      (receive_edge d time).1.last_frame_gap = d.last_frame_gap ∧
      (receive_edge d time).1.frame = receive_add d.frame time) := by
  have hiff := time_cmp_iff d.last_frame_gap time hg ht
  constructor
  · intro hbig
    by_cases hc : d.last_frame_length = (receive_add d.frame time).length ∧
        time_cmp d.last_frame_gap time = true
    · have e : receive_edge d time = ({ d with frame := receive_add d.frame time }, true) := by
        unfold receive_edge MIN_PULSES MIN_GAP
        simp only [if_pos hbig, if_pos hc]
      rw [e]
      refine ⟨⟨fun _ => ⟨hc.1, hiff.1 hc.2⟩, fun _ => rfl⟩, fun _ => rfl, fun h => ?_⟩
      exact Bool.noConfusion h
    · have e : receive_edge d time =
          ({ d with frame := frame_clear (receive_add d.frame time),
                    last_frame_length := (receive_add d.frame time).length,
                    last_frame_gap := time }, false) := by
        unfold receive_edge MIN_PULSES MIN_GAP
        simp only [if_pos hbig, if_neg hc]
      rw [e]
      refine ⟨⟨fun h => Bool.noConfusion h, fun h => ?_⟩, fun h => Bool.noConfusion h,
        fun _ => ⟨rfl, rfl, rfl, rfl, rfl⟩⟩
      exact absurd ⟨h.1, hiff.2 h.2⟩ hc
  · intro hsmall
    have e : receive_edge d time = ({ d with frame := receive_add d.frame time }, false) := by
      unfold receive_edge MIN_PULSES MIN_GAP
      simp only [if_neg hsmall]
    rw [e]
    exact ⟨rfl, rfl, rfl, rfl⟩

/-- Witness for C14: the twentieth edge with gap 3450 confirms against the
candidate (20 edges, gap 3500). -/
theorem receive_edge_decision_witness :
    (device_c14.last_frame_gap < 65536 ∧ 3450 < 65536) ∧
    ((receive_add device_c14.frame 3450).length ≥ 20 ∧ 3450 > 3000) ∧
    (receive_edge device_c14 3450).2 = true :=
  ⟨by decide, by decide,
   (((receive_edge_decision device_c14 3450 (by decide) (by decide)).1 (by decide)).1).2
     (by decide)⟩

/-- C15 fails for the readings `now = 65540`, `lastEdgeTime = 0`: the
wrap-safe gap is 65540, at least 70, but the gap the step uses is 4 and the
level change leaves the working frame without any `frame_add`. -/
theorem receive_gap_truncated :
    time_diff 65540 0 = 65540 ∧ MIN_TIME ≤ time_diff 65540 0 ∧
    receive_time 65540 0 = 4 ∧ receive_time 65540 0 ≠ time_diff 65540 0 ∧
    session_c15.last_time = 0 ∧ session_c15.last_in ≠ 4 ∧
    receive_loop_body session_c15 65540 4 =
      receive_result.running { session_c15 with last_in := 4, last_time := 65540 } := by
  decide

/-- C15, amended: for every pair of readings, the gap of a level change is
`time_diff(now, lastEdgeTime)` reduced modulo 65536 (the cast to `uint16_t`):
the level-change pass runs the branch, with its comparisons against `MIN_TIME`
and `MIN_GAP`, on that reduced value, makes a `frame_add` attempt with it
when it is at least 70 (repeated on the cleared frame when the first attempt
fails) and none when it is below 70, and confirms nothing when it is at most
3000.  When the wrap-safe difference is below
65536 the reduced value is the difference itself, and a difference of at
least 70 then results in a `frame_add` attempt with that difference. -/
theorem receive_gap_spec (s : receive_t) (now pin : Nat) :
    receive_time now s.last_time = time_diff now s.last_time % 65536 ∧
    (¬ time_diff now s.start > TIMEOUT → s.last_in ≠ pin →
      receive_loop_body s now pin =
        if (receive_edge s.dev (time_diff now s.last_time % 65536)).2 = true then
          receive_result.confirmed
            (receive_callback (receive_edge s.dev (time_diff now s.last_time % 65536)).1)
        else
          receive_result.running
            { s with dev := (receive_edge s.dev (time_diff now s.last_time % 65536)).1,
                     last_in := pin, last_time := now }) ∧
    (∀ f : frame_t, 70 ≤ time_diff now s.last_time % 65536 →
      receive_add f (time_diff now s.last_time % 65536) =
        if (frame_add f (time_diff now s.last_time % 65536)).2 = true then
          (frame_add f (time_diff now s.last_time % 65536)).1
        else
          (frame_add (frame_clear (frame_add f (time_diff now s.last_time % 65536)).1)
            (time_diff now s.last_time % 65536)).1) ∧
    (∀ f : frame_t, time_diff now s.last_time % 65536 < 70 →
      receive_add f (time_diff now s.last_time % 65536) = f) ∧
    (∀ d : device_t, time_diff now s.last_time % 65536 ≤ 3000 →
      (receive_edge d (time_diff now s.last_time % 65536)).2 = false) ∧
    (time_diff now s.last_time < 65536 →
      receive_time now s.last_time = time_diff now s.last_time ∧
      (¬ time_diff now s.start > TIMEOUT → s.last_in ≠ pin →
        receive_loop_body s now pin =
          if (receive_edge s.dev (time_diff now s.last_time)).2 = true then
            receive_result.confirmed
              (receive_callback (receive_edge s.dev (time_diff now s.last_time)).1)
          else
            receive_result.running
              { s with dev := (receive_edge s.dev (time_diff now s.last_time)).1,
                       last_in := pin, last_time := now }) ∧
      (70 ≤ time_diff now s.last_time →
        receive_add s.dev.frame (receive_time now s.last_time) =
          if (frame_add s.dev.frame (time_diff now s.last_time)).2 = true then
            (frame_add s.dev.frame (time_diff now s.last_time)).1
          else
            (frame_add (frame_clear (frame_add s.dev.frame (time_diff now s.last_time)).1)
              (time_diff now s.last_time)).1)) := by
  have hbody : ¬ time_diff now s.start > TIMEOUT → s.last_in ≠ pin →
      receive_loop_body s now pin =
        if (receive_edge s.dev (time_diff now s.last_time % 65536)).2 = true then
          receive_result.confirmed
            (receive_callback (receive_edge s.dev (time_diff now s.last_time % 65536)).1)
        else
          receive_result.running
            { s with dev := (receive_edge s.dev (time_diff now s.last_time % 65536)).1,
                     last_in := pin, last_time := now } := by
    intro hto hch
    unfold receive_loop_body receive_time
    simp only [if_neg hto, if_pos hch]
  have hadd : ∀ (f : frame_t) (g : Nat), 70 ≤ g →
      receive_add f g =
        if (frame_add f g).2 = true then (frame_add f g).1
        else (frame_add (frame_clear (frame_add f g).1) g).1 := by
    intro f g h70
    unfold receive_add MIN_TIME
    rw [if_pos h70]
    by_cases hok : (frame_add f g).2 = true
    · simp only [hok, if_pos]
      simp
    · simp only [hok]
      simp
  refine ⟨rfl, hbody, fun f h70 => hadd f _ h70, fun f hlt => ?_, fun d hle => ?_,
    fun hsmall => ?_⟩
  · unfold receive_add MIN_TIME
    rw [if_neg (by omega)]
  · unfold receive_edge MIN_GAP
    simp only []
    rw [if_neg (fun h => by omega)]
  · have e : time_diff now s.last_time % 65536 = time_diff now s.last_time := by omega
    have e2 : receive_time now s.last_time = time_diff now s.last_time := by
      unfold receive_time; exact e
    refine ⟨e2, fun hto hch => ?_, fun h70 => ?_⟩
    · have := hbody hto hch
      rw [e] at this
      exact this
    · rw [e2]
      exact hadd s.dev.frame _ h70

/-- Witness for C15 (amended): readings 560 microseconds apart give the gap
560, and the readings 65540 apart the gap 4. -/
theorem receive_gap_spec_witness :
    time_diff 560 session_c15.last_time < 65536 ∧
    receive_time 560 session_c15.last_time = 560 ∧
    receive_time 65540 session_c15.last_time = time_diff 65540 session_c15.last_time % 65536 :=
  ⟨by decide, ((receive_gap_spec session_c15 560 4).2.2.2.2.2 (by decide)).1,
   (receive_gap_spec session_c15 65540 4).1⟩

/-- The frame condition of `frame_add` from the facts it needs: on a frame
with `times_count ≤ 16`, `length < 256` and every stored index at a position
below `length` below `times_count`, a successful `frame_add` leaves every
earlier position decoding to the same value, the index stored at every
position other than `length` as it was, and every table entry below
`times_count` unchanged. -/
theorem frame_add_keeps_earlier (f : frame_t) (t : Nat) (hwf : f.WF)
    (hc : f.times_count ≤ 16) (hl : f.length < 256)
    (hidx : ∀ j, j < f.length → frame_get_index f j < f.times_count)
    (hok : (frame_add f t).2 = true) :
    (∀ j, j < f.length → frame_get (frame_add f t).1 j = frame_get f j) ∧
    (∀ p, p ≠ f.length → frame_get_index (frame_add f t).1 p = frame_get_index f p) ∧
    (∀ i, i < f.times_count → (frame_add f t).1.times.getD i 0 = f.times.getD i 0) := by
  obtain ⟨h1, h2, h3, h4, h5, h6⟩ := hwf
  rcases frame_add_cases f t hc with ⟨j, hj, -, -, heq⟩ | ⟨hno, heq⟩
  · obtain ⟨-, s2, -, -, -, -, s7⟩ := frame_add_store_ok f j (by omega) h2 h4 hl
    rw [← heq] at s2 s7
    refine ⟨fun p hp => ?_, fun p hp => ?_, fun i _ => by rw [s2]⟩
    · unfold frame_get
      rw [s7 p, if_neg (by omega), s2]
    · rw [s7 p, if_neg hp]
  · by_cases hfull : f.times_count ≥ 16
    · rw [if_pos hfull] at heq
      rw [heq] at hok
      exact Bool.noConfusion hok
    · rw [if_neg hfull] at heq
      obtain ⟨-, s2, -, -, -, -, s7⟩ := frame_add_store_ok
        { f with times := f.times.set f.times_count t, times_count := f.times_count + 1 }
        f.times_count (by omega) h2 h4 hl
      rw [← heq] at s2 s7
      simp only [] at s2 s7
      have e : ∀ p, frame_get_index
          { f with times := f.times.set f.times_count t, times_count := f.times_count + 1 } p =
          frame_get_index f p := fun _ => rfl
      refine ⟨fun p hp => ?_, fun p hp => ?_, fun i hi => ?_⟩
      · have := hidx p hp
        unfold frame_get
        rw [s7 p, if_neg (by omega), s2, getD_set, e, if_neg (fun h => by omega)]
      · rw [s7 p, if_neg hp, e]
      · rw [s2, getD_set, if_neg (fun h => by omega)]

/-- C18: on every frame `frame_add` is handed (a frame reachable from
`frame_clear` by `frame_add` calls) with `length < 256`, a successful
`frame_add` leaves every earlier position decoding to the same value, leaves
the index stored at every position other than `length` as it was (the nibble
write disturbs neither the other nibble of its byte nor any other byte), and
leaves every table entry below `times_count` unchanged. -/
theorem frame_add_packing (f : frame_t) (t : Nat) (h : Reachable f) (hl : f.length < 256)
    (hok : (frame_add f t).2 = true) :
    (∀ j, j < f.length → frame_get (frame_add f t).1 j = frame_get f j) ∧
    (∀ p, p ≠ f.length → frame_get_index (frame_add f t).1 p = frame_get_index f p) ∧
    (∀ i, i < f.times_count → (frame_add f t).1.times.getD i 0 = f.times.getD i 0) := by
  have hinv := FrameInv_of_Reachable f h
  exact frame_add_keeps_earlier f t hinv.wf hinv.count_le hl hinv.index_lt hok

/-- Witness for C18: on `frame_two` (edges 100 and 250) adding 9000 appends a
table entry and keeps position 0 decoding to 100 and position 1 to 250. -/
theorem frame_add_packing_witness :
    (frame_two.length < 256 ∧ (frame_add frame_two 9000).2 = true) ∧
    frame_get (frame_add frame_two 9000).1 0 = frame_get frame_two 0 ∧
    frame_get (frame_add frame_two 9000).1 1 = 250 ∧
    (frame_add frame_two 9000).1.times.getD 0 0 = frame_two.times.getD 0 0 :=
  ⟨by decide,
   (frame_add_packing frame_two 9000 frame_two_Reachable (by decide) (by decide)).1 0
     (by decide),
   by decide,
   (frame_add_packing frame_two 9000 frame_two_Reachable (by decide) (by decide)).2.2 0
     (by decide)⟩

theorem receive_callback_frame (d : device_t) :
    (receive_callback d).frame = (receive_callback d).eeprom_frame := rfl

theorem receive_timeout_frame (d : device_t) (h : (receive_timeout d).flags &&& FLAGS_FRAME ≠ 0) :
    (receive_timeout d).frame = (receive_timeout d).eeprom_frame := by
  unfold receive_timeout config_load_frame at h ⊢
  by_cases hf : d.flags &&& FLAGS_FRAME = 0
  · rw [if_pos hf] at h
    exact absurd hf h
  · rw [if_neg hf]

theorem setup_frame (d : device_t) (h : (setup d).flags &&& FLAGS_FRAME ≠ 0) :
    (setup d).frame = (setup d).eeprom_frame := by
  unfold setup at h ⊢
  simp only [] at h ⊢
  by_cases hm : (config_load_meta { d with frame := frame_clear d.frame }).2 = true
  · rw [if_pos hm] at h ⊢
    unfold config_load_frame at h ⊢
    by_cases hf : (config_load_meta { d with frame := frame_clear d.frame }).1.flags &&&
        FLAGS_FRAME = 0
    · rw [if_pos hf] at h
      exact absurd hf h
    · rw [if_neg hf]
  · rw [if_neg hm] at h
    have h0 : DEFAULT_FLAGS &&& FLAGS_FRAME = 0 := by decide
    exact absurd h0 h

/-- A session that ended did so through `receive_callback` or through
`receive_timeout`. -/
theorem receive_loop_end (samples : List (Nat × Nat)) : ∀ s : receive_t,
    (∀ d1, receive_loop s samples = receive_result.confirmed d1 →
      ∃ d0, d1 = receive_callback d0) ∧
    (∀ d1, receive_loop s samples = receive_result.timed_out d1 →
      ∃ d0, d1 = receive_timeout d0) := by
  induction samples with
  | nil =>
    intro s
    exact ⟨fun d1 h => by simp [receive_loop] at h, fun d1 h => by simp [receive_loop] at h⟩
  | cons x rest ih =>
    intro s
    obtain ⟨now, pin⟩ := x
    have hbody : (∃ s1, receive_loop_body s now pin = receive_result.running s1) ∨
        (∃ d0, receive_loop_body s now pin = receive_result.confirmed (receive_callback d0)) ∨
        (∃ d0, receive_loop_body s now pin = receive_result.timed_out (receive_timeout d0)) := by
      unfold receive_loop_body
      simp only []
      by_cases hto : time_diff now s.start > TIMEOUT
      · rw [if_pos hto]; exact Or.inr (Or.inr ⟨_, rfl⟩)
      · rw [if_neg hto]
        by_cases hch : s.last_in ≠ pin
        · rw [if_pos hch]
          by_cases hc : (receive_edge s.dev (receive_time now s.last_time)).2 = true
          · rw [if_pos hc]; exact Or.inr (Or.inl ⟨_, rfl⟩)
          · rw [if_neg hc]; exact Or.inl ⟨_, rfl⟩
        · rw [if_neg hch]; exact Or.inl ⟨_, rfl⟩
    rcases hbody with ⟨s1, h1⟩ | ⟨d0, h1⟩ | ⟨d0, h1⟩
    · have e : receive_loop s ((now, pin) :: rest) = receive_loop s1 rest := by
        simp only [receive_loop, h1]
      rw [e]; exact ih s1
    · have e : receive_loop s ((now, pin) :: rest) =
          receive_result.confirmed (receive_callback d0) := by
        simp only [receive_loop, h1]
      rw [e]
      refine ⟨fun d1 h => ⟨d0, ?_⟩, fun d1 h => ?_⟩
      · injection h with h; exact h.symm
      · exact receive_result.noConfusion h
    · have e : receive_loop s ((now, pin) :: rest) =
          receive_result.timed_out (receive_timeout d0) := by
        simp only [receive_loop, h1]
      rw [e]
      refine ⟨fun d1 h => ?_, fun d1 h => ⟨d0, ?_⟩⟩
      · exact receive_result.noConfusion h
      · injection h with h; exact h.symm

/-- C19: at every point where the main loop is back in `IDLE` (after `setup`,
after a capture session ended by confirmation or by timeout, after a replay),
if bit 0 of `flags` is set the in-memory frame equals the EEPROM frame; so
what `send` replays there is the persisted frame. -/
theorem persisted_frame_invariant (d : device_t) (h : IdlePoint d)
    (hflag : d.flags &&& FLAGS_FRAME ≠ 0) :
    d.frame = d.eeprom_frame ∧
    (main_send d).2 = send d.flags d.eeprom_frame 10 := by
  have key : d.frame = d.eeprom_frame := by
    induction h with
    | boot magic version eflags eframe => exact setup_frame _ hflag
    | captured d d1 micros pin samples _ hr _ =>
      obtain ⟨d0, rfl⟩ := (receive_loop_end samples (receive_begin d micros pin)).1 d1 hr
      exact receive_callback_frame d0
    | expired d d1 micros pin samples _ hr _ =>
      obtain ⟨d0, rfl⟩ := (receive_loop_end samples (receive_begin d micros pin)).2 d1 hr
      exact receive_timeout_frame d0 hflag
    | replayed d _ ih => exact ih hflag
  refine ⟨key, ?_⟩
  unfold main_send
  rw [key]

/-- Witness for C19: booting with a persisted frame (EEPROM flag set) loads
that frame. -/
theorem persisted_frame_invariant_witness :
    (setup (power_on MAGIC VERSION 1 frame_two)).flags &&& FLAGS_FRAME ≠ 0 ∧
    (setup (power_on MAGIC VERSION 1 frame_two)).frame =
      (setup (power_on MAGIC VERSION 1 frame_two)).eeprom_frame :=
  ⟨by decide,
   (persisted_frame_invariant (setup (power_on MAGIC VERSION 1 frame_two))
      (IdlePoint.boot MAGIC VERSION 1 frame_two) (by decide)).1⟩

theorem frame_add_all_cons (f : frame_t) (t : Nat) (ts : List Nat) :
    frame_add_all f (t :: ts) =
      ((frame_add_all (frame_add f t).1 ts).1,
       (frame_add f t).2 :: (frame_add_all (frame_add f t).1 ts).2) := rfl

theorem frame_add_all_append (a b : List Nat) : ∀ f : frame_t,
    frame_add_all f (a ++ b) =
      ((frame_add_all (frame_add_all f a).1 b).1,
       (frame_add_all f a).2 ++ (frame_add_all (frame_add_all f a).1 b).2) := by
  induction a with
  | nil => intro f; rfl
  | cons t ts ih =>
    intro f
    rw [List.cons_append, frame_add_all_cons, ih, frame_add_all_cons]
    rfl

theorem FrameInv_frame_add_all (ts : List Nat) : ∀ f : frame_t, FrameInv f →
    (∀ t ∈ ts, t < 65536) → FrameInv (frame_add_all f ts).1 := by
  induction ts with
  | nil => intro f hf _; exact hf
  | cons t ts ih =>
    intro f hf ht
    exact ih (frame_add f t).1
      (FrameInv_frame_add f t hf (ht t (List.mem_cons_self t ts)))
      (fun x hx => ht x (List.mem_cons_of_mem t hx))

theorem receive_edges_cons_true (d : device_t) (t : Nat) (ts : List Nat)
    (h : (receive_edge d t).2 = true) :
    receive_edges d (t :: ts) = ((receive_edge d t).1, some 0) := by
  simp only [receive_edges, h, if_true]

theorem receive_edges_cons_false (d : device_t) (t : Nat) (ts : List Nat)
    (h : (receive_edge d t).2 = false) :
    receive_edges d (t :: ts) =
      ((receive_edges (receive_edge d t).1 ts).1,
       (receive_edges (receive_edge d t).1 ts).2.map (fun k => k + 1)) := by
  simp only [receive_edges, h]
  rfl

/-- Edges after a run of edges none of which confirmed. -/
theorem receive_edges_append (ts us : List Nat) : ∀ d : device_t,
    (receive_edges d ts).2 = none →
    receive_edges d (ts ++ us) =
      ((receive_edges (receive_edges d ts).1 us).1,
       (receive_edges (receive_edges d ts).1 us).2.map (fun k => k + ts.length)) := by
  induction ts with
  | nil =>
    intro d _
    show receive_edges d us = ((receive_edges d us).1,
      (receive_edges d us).2.map (fun k => k + 0))
    have e : (fun k : Nat => k + 0) = id := rfl
    rw [e, Option.map_id]
    rfl
  | cons t ts ih =>
    intro d h
    by_cases hc : (receive_edge d t).2 = true
    · rw [receive_edges_cons_true d t ts hc] at h
      exact Option.noConfusion h
    · have hc2 : (receive_edge d t).2 = false := by simpa using hc
      rw [receive_edges_cons_false d t ts hc2] at h
      have h2 : (receive_edges (receive_edge d t).1 ts).2 = none := by
        cases hr : (receive_edges (receive_edge d t).1 ts).2 with
        | none => rfl
        | some k => rw [hr] at h; exact Option.noConfusion h
      rw [List.cons_append, receive_edges_cons_false d t (ts ++ us) hc2,
        ih (receive_edge d t).1 h2, receive_edges_cons_false d t ts hc2]
      show (_, _) = (_, _)
      congr 1
      cases (receive_edges (receive_edges (receive_edge d t).1 ts).1 us).2 with
      | none => rfl
      | some k => rfl

/-- A run of short gaps (70 to 3000) that the working frame accepts is the
same run of `frame_add` calls and confirms nothing. -/
theorem receive_edges_short (ts : List Nat) : ∀ d : device_t,
    (∀ t ∈ ts, 70 ≤ t ∧ t ≤ 3000) →
    (frame_add_all d.frame ts).2 = List.replicate ts.length true →
    receive_edges d ts = ({ d with frame := (frame_add_all d.frame ts).1 }, none) := by
  induction ts with
  | nil => intro d _ _; rfl
  | cons t ts ih =>
    intro d ht hok
    have h70 := ht t (List.mem_cons_self t ts)
    rw [frame_add_all_cons] at hok
    simp only [List.length_cons, List.replicate_succ, List.cons.injEq] at hok
    have hadd : receive_add d.frame t = (frame_add d.frame t).1 := by
      unfold receive_add MIN_TIME
      simp only [if_pos h70.1, hok.1]
      simp
    have hstep : receive_edge d t = ({ d with frame := (frame_add d.frame t).1 }, false) := by
      unfold receive_edge MIN_GAP
      simp only [hadd]
      rw [if_neg (fun h => by omega)]
    have hrest := ih { d with frame := (frame_add d.frame t).1 }
      (fun x hx => ht x (List.mem_cons_of_mem t hx)) hok.2
    rw [receive_edges_cons_false d t ts (by rw [hstep]), hstep, hrest, frame_add_all_cons]
    rfl

theorem flag_set (x : Nat) : ((x ||| FLAGS_FRAME) % 256) &&& FLAGS_FRAME ≠ 0 := by
  unfold FLAGS_FRAME
  rw [Nat.and_one_is_mod]
  have h : (x ||| 1) % 2 = 1 := Nat.or_mod_two_eq_one.2 (Or.inr rfl)
  omega

theorem card_swap_last (body : List Nat) (g g2 : Nat) (hg : g ∉ body)
    (h : (body ++ [g]).toFinset.card ≤ 16) : (body ++ [g2]).toFinset.card ≤ 16 := by
  have e1 : (body ++ [g]).toFinset = insert g body.toFinset := by
    ext x; simp [or_comm]
  have e2 : (body ++ [g2]).toFinset = insert g2 body.toFinset := by
    ext x; simp [or_comm]
  rw [e1, Finset.card_insert_of_not_mem (by simpa using hg)] at h
  rw [e2]
  exact le_trans (Finset.card_insert_le _ _) h

/-- One repetition fed to the capture step from an empty working frame: the
short gaps `body` confirm nothing and leave everything but the working frame
alone, and the add of the closing gap `x` yields a frame of
`body.length + 1` edges decoding to within tolerance of `body ++ [x]`. -/
theorem capture_pass (d : device_t) (body : List Nat) (x : Nat)
    (hinv : FrameInv d.frame) (hempty : d.frame.length = 0 ∧ d.frame.times_count = 0)
    (hn : body.length + 1 ≤ 256)
    (hbody : ∀ t ∈ body, 70 ≤ t ∧ t ≤ 3000) (hx : 3000 < x ∧ x < 65536)
    (hcard : (body ++ [x]).toFinset.card ≤ 16) :
    receive_edges d body = ({ d with frame := (frame_add_all d.frame body).1 }, none) ∧
    FrameInv (receive_add (frame_add_all d.frame body).1 x) ∧
    (receive_add (frame_add_all d.frame body).1 x).length = body.length + 1 ∧
    (∀ p, p < body.length + 1 →
      within_tol (frame_get (receive_add (frame_add_all d.frame body).1 x) p)
        ((body ++ [x]).getD p 0)) := by
  have h16 : ∀ t ∈ body ++ [x], t < 65536 := by
    intro t ht
    rcases List.mem_append.1 ht with h | h
    · have := hbody t h; omega
    · rw [List.mem_singleton] at h; omega
  have hdec := frame_add_all_decodes (body ++ [x]) [] d.frame hinv (by rw [hempty.1]; rfl)
    (fun p hp => absurd hp (Nat.not_lt_zero p))
    (fun i hi => by rw [hempty.2] at hi; exact absurd hi (Nat.not_lt_zero i))
    h16 (by simpa using hcard) (by simpa using hn)
  simp only [List.nil_append, List.length_append, List.length_singleton] at hdec
  obtain ⟨k1, k2, k3⟩ := hdec
  rw [frame_add_all_append] at k1 k2 k3
  simp only [] at k1 k2 k3
  have hsingle : frame_add_all (frame_add_all d.frame body).1 [x] =
      ((frame_add (frame_add_all d.frame body).1 x).1,
       [(frame_add (frame_add_all d.frame body).1 x).2]) := rfl
  rw [hsingle] at k1 k2 k3
  simp only [] at k1 k2 k3
  have hlen : ∀ (ts : List Nat) (f : frame_t), (frame_add_all f ts).2.length = ts.length := by
    intro ts
    induction ts with
    | nil => intro f; rfl
    | cons t ts ih => intro f; rw [frame_add_all_cons]; simp [ih]
  have hrep : List.replicate (body.length + 1) true =
      List.replicate body.length true ++ [true] := by
    rw [List.replicate_succ']
  rw [hrep] at k1
  obtain ⟨f1, f2⟩ := List.append_inj k1 (by rw [hlen, List.length_replicate])
  have hxok : (frame_add (frame_add_all d.frame body).1 x).2 = true := by
    simpa using f2
  have hadd : receive_add (frame_add_all d.frame body).1 x =
      (frame_add (frame_add_all d.frame body).1 x).1 := by
    unfold receive_add MIN_TIME
    rw [if_pos (by omega)]
    simp only [hxok]
    simp
  rw [hadd]
  refine ⟨receive_edges_short body d hbody f1, ?_, k2, k3⟩
  exact FrameInv_frame_add _ x
    (FrameInv_frame_add_all body d.frame hinv (fun t ht => by have := hbody t ht; omega)) hx.2

/-- C11, amended: from a fresh session (working frame cleared,
`last_frame_length = 0`), feeding `n - 1` gaps between 70 and 3000 and a gap
`g > 3000` (at most 16 distinct values, `20 ≤ n ≤ 256`), then the same `n - 1`
gaps and a gap `g2 > 3000` within 100 of `g`, confirms at the last edge and
not before; the frame `receive_callback` persists has length `n`, decodes to
within 100 of each of the `n - 1` gaps and, at the last position, to within
100 of `g2`, the closing gap of the second repetition; bit 0 of `flags` is
set. -/
theorem capture_confirms (d : device_t) (micros pin : Nat) (body : List Nat) (g g2 : Nat)
    (hwf : d.frame.WF) (hn1 : 20 ≤ body.length + 1) (hn2 : body.length + 1 ≤ 256)
    (hbody : ∀ t ∈ body, 70 ≤ t ∧ t ≤ 3000)
    (hg : 3000 < g ∧ g < 65536) (hg2 : 3000 < g2 ∧ g2 < 65536)
    (hnear : within_tol g g2)
    (hdist : (body ++ [g]).toFinset.card ≤ 16) :
    (receive_edges (receive_begin d micros pin).dev (two_repetitions body g g2)).2 =
      some (2 * (body.length + 1) - 1) ∧
    (receive_callback
      (receive_edges (receive_begin d micros pin).dev
        (two_repetitions body g g2)).1).eeprom_frame.length = body.length + 1 ∧
    (∀ i, i < body.length →
      within_tol (frame_get (receive_callback
        (receive_edges (receive_begin d micros pin).dev
          (two_repetitions body g g2)).1).eeprom_frame i) (body.getD i 0)) ∧
    within_tol (frame_get (receive_callback
        (receive_edges (receive_begin d micros pin).dev
          (two_repetitions body g g2)).1).eeprom_frame body.length) g2 ∧
    (receive_callback
      (receive_edges (receive_begin d micros pin).dev
        (two_repetitions body g g2)).1).flags &&& FLAGS_FRAME ≠ 0 := by
  -- first repetition
  have hinv0 : FrameInv (receive_begin d micros pin).dev.frame := FrameInv_clear d.frame hwf
  obtain ⟨p1, p2, p3, -⟩ := capture_pass (receive_begin d micros pin).dev body g hinv0
    ⟨rfl, rfl⟩ hn2 hbody hg hdist
  generalize hF1 : (frame_add_all (receive_begin d micros pin).dev.frame body).1 = F1
    at p1 p2 p3
  generalize hd0 : (receive_begin d micros pin).dev = d0 at p1
  have hl0 : d0.last_frame_length = 0 := by rw [← hd0]; rfl
  have hstep1 : receive_edge { d0 with frame := F1 } g =
      ({ d0 with frame := frame_clear (receive_add F1 g),
                 last_frame_length := (receive_add F1 g).length,
                 last_frame_gap := g }, false) := by
    unfold receive_edge MIN_PULSES MIN_GAP
    simp only []
    rw [if_pos ⟨by rw [p3]; exact hn1, hg.1⟩, if_neg (fun h => by rw [hl0, p3] at h; omega)]
  -- second repetition
  obtain ⟨d1, hd1⟩ : ∃ d1 : device_t, d1 =
      { d0 with frame := frame_clear (receive_add F1 g),
                last_frame_length := (receive_add F1 g).length,
                last_frame_gap := g } := ⟨_, rfl⟩
  rw [← hd1] at hstep1
  have hd1f : d1.frame = frame_clear (receive_add F1 g) := by rw [hd1]
  have hd1l : d1.last_frame_length = body.length + 1 := by rw [hd1]; exact p3
  have hd1g : d1.last_frame_gap = g := by rw [hd1]
  have hinv1 : FrameInv d1.frame := by rw [hd1f]; exact FrameInv_clear _ p2.wf
  have hgbody : g ∉ body := fun h => by have := hbody g h; omega
  obtain ⟨q1, -, q3, q4⟩ := capture_pass d1 body g2 hinv1
    ⟨by rw [hd1f]; rfl, by rw [hd1f]; rfl⟩ hn2 hbody hg2 (card_swap_last body g g2 hgbody hdist)
  generalize hG1 : (frame_add_all d1.frame body).1 = G1 at q1 q3 q4
  have hstep2 : receive_edge { d1 with frame := G1 } g2 =
      ({ d1 with frame := receive_add G1 g2 }, true) := by
    unfold receive_edge MIN_PULSES MIN_GAP
    simp only []
    rw [if_pos ⟨by rw [q3]; exact hn1, hg2.1⟩,
      if_pos ⟨by rw [hd1l, q3], by rw [hd1g]; exact (time_cmp_iff g g2 hg.2 hg2.2).2 hnear⟩]
  -- the whole run
  have hrun : receive_edges d0 (two_repetitions body g g2) =
      ({ d1 with frame := receive_add G1 g2 }, some (2 * (body.length + 1) - 1)) := by
    have hassoc : two_repetitions body g g2 = body ++ (g :: (body ++ [g2])) := by
      unfold two_repetitions
      simp only [List.append_assoc, List.singleton_append, List.cons_append, List.nil_append]
    rw [hassoc, receive_edges_append body _ d0 (by rw [p1]), p1]
    simp only []
    rw [receive_edges_cons_false _ g _ (by rw [hstep1]), hstep1]
    simp only []
    rw [receive_edges_append body _ d1 (by rw [q1]), q1]
    simp only []
    rw [receive_edges_cons_true _ g2 _ (by rw [hstep2]), hstep2]
    simp only [Option.map_some']
    congr 2
    omega
  rw [hrun]
  refine ⟨rfl, q3, fun i hi => ?_, ?_, flag_set _⟩
  · have := q4 i (by omega)
    rwa [List.getD_append _ _ _ _ hi] at this
  · have := q4 body.length (by omega)
    rw [List.getD_append_right _ _ _ _ (le_refl _)] at this
    simpa using this

set_option maxRecDepth 1000000 in
/-- C11 fails at its last position: 19 gaps of 3000 and a closing gap of 3200,
then the same 19 gaps and a closing gap of 3100.  The hypotheses of the claim
hold and the session confirms at the last edge (position 39), but position 19
of the persisted frame decodes to 3000 (the first table entry within 100 of
3100), which is 200 away from the closing gap 3200 of the first repetition. -/
theorem capture_last_gap_off :
    (20 ≤ (List.replicate 19 3000 ++ [3200]).length ∧
     (List.replicate 19 3000 ++ [3200]).length ≤ 256 ∧
     (∀ t ∈ List.replicate 19 3000, 70 ≤ t ∧ t ≤ 3000) ∧
     (3000 < 3200 ∧ 3200 < 65536) ∧ 3000 < 3100 ∧ within_tol 3200 3100 ∧
     (List.replicate 19 3000 ++ [3200]).toFinset.card ≤ 16) ∧
    (receive_edges (receive_begin device_fresh 0 0).dev
      (two_repetitions (List.replicate 19 3000) 3200 3100)).2 = some 39 ∧
    (receive_callback (receive_edges (receive_begin device_fresh 0 0).dev
      (two_repetitions (List.replicate 19 3000) 3200 3100)).1).eeprom_frame.length = 20 ∧
    frame_get (receive_callback (receive_edges (receive_begin device_fresh 0 0).dev
      (two_repetitions (List.replicate 19 3000) 3200 3100)).1).eeprom_frame 19 = 3000 ∧
    ¬ within_tol 3000 3200 := by
  decide

/-- Witness for C11 (amended), the scenario of the specification: 19 gaps of
560 and a closing gap of 3500, fed twice. -/
theorem capture_confirms_witness :
    (20 ≤ (List.replicate 19 560).length + 1 ∧ (List.replicate 19 560).length + 1 ≤ 256 ∧
      within_tol 3500 3500) ∧
    (receive_edges (receive_begin device_fresh 0 0).dev
      (two_repetitions (List.replicate 19 560) 3500 3500)).2 = some 39 ∧
    (receive_callback (receive_edges (receive_begin device_fresh 0 0).dev
      (two_repetitions (List.replicate 19 560) 3500 3500)).1).eeprom_frame.length = 20 :=
  ⟨by decide,
   (capture_confirms device_fresh 0 0 (List.replicate 19 560) 3500 3500 frame_zero_WF
      (by decide) (by decide) (by decide) (by decide) (by decide) (by decide) (by decide)).1,
   (capture_confirms device_fresh 0 0 (List.replicate 19 560) 3500 3500 frame_zero_WF
      (by decide) (by decide) (by decide) (by decide) (by decide) (by decide) (by decide)).2.1⟩

/-- The exact effect of `frame_add` when nothing in the table matches and
both the table and the sequence have room. -/
theorem frame_add_append (f : frame_t) (t : Nat) (hf : FrameInv f)
    (hno : ∀ j, j < f.times_count → time_cmp (f.times.getD j 0) t = false)
    (hroom : f.times_count < 16) (hl : f.length < 256) :
    (frame_add f t).2 = true ∧
    (frame_add f t).1.times_count = f.times_count + 1 ∧
    (frame_add f t).1.length = f.length + 1 ∧
    (frame_add f t).1.times.getD f.times_count 0 = t ∧
    (∀ i, i < f.times_count → (frame_add f t).1.times.getD i 0 = f.times.getD i 0) ∧
    frame_get (frame_add f t).1 f.length = t := by
  obtain ⟨h1, h2, h3, h4, h5, h6⟩ := hf.wf
  rcases frame_add_cases f t hf.count_le with ⟨j, hj, hm, -, -⟩ | ⟨-, heq⟩
  · rw [hno j hj] at hm
    exact Bool.noConfusion hm
  · rw [if_neg (by omega)] at heq
    obtain ⟨s1, s2, s3, s4, -, -, s7⟩ := frame_add_store_ok
      { f with times := f.times.set f.times_count t, times_count := f.times_count + 1 }
      f.times_count (by omega) h2 h4 hl
    rw [← heq] at s1 s2 s3 s4 s7
    simp only [] at s2 s3 s4 s7
    have hget : (frame_add f t).1.times.getD f.times_count 0 = t := by
      rw [s2, getD_set, if_pos ⟨rfl, by omega⟩]
    refine ⟨s1, s3, s4, hget, fun i hi => ?_, ?_⟩
    · rw [s2, getD_set, if_neg (fun h => by omega)]
    · unfold frame_get
      rw [s7 f.length, if_pos rfl, hget]

/-- With the table full and nothing matching, `frame_add` fails and leaves
the frame as it was. -/
theorem frame_add_table_full (f : frame_t) (t : Nat) (hf : FrameInv f)
    (hno : ∀ j, j < f.times_count → time_cmp (f.times.getD j 0) t = false)
    (hfull : f.times_count = 16) : frame_add f t = (f, false) := by
  rcases frame_add_cases f t hf.count_le with ⟨j, hj, hm, -, -⟩ | ⟨-, heq⟩
  · rw [hno j hj] at hm
    exact Bool.noConfusion hm
  · rw [if_pos (by omega)] at heq
    exact heq

/-- A run of gaps, at least 70 and pairwise out of tolerance of each other
and of the table, while table and the 20-edge threshold are not reached: each
gap becomes a new table entry, nothing confirms, the previous candidate
stays. -/
theorem receive_edges_distinct (ts : List Nat) : ∀ d : device_t,
    FrameInv d.frame →
    d.frame.times_count + ts.length ≤ 16 → d.frame.length + ts.length < 20 →
    (∀ t ∈ ts, 70 ≤ t ∧ t < 65536) →
    ts.Pairwise (fun a b => ¬ within_tol a b) →
    (∀ t ∈ ts, ∀ i, i < d.frame.times_count → ¬ within_tol (d.frame.times.getD i 0) t) →
    (receive_edges d ts).2 = none ∧
    (receive_edges d ts).1.last_frame_length = d.last_frame_length ∧
    (receive_edges d ts).1.last_frame_gap = d.last_frame_gap ∧
    FrameInv (receive_edges d ts).1.frame ∧
    (receive_edges d ts).1.frame.times_count = d.frame.times_count + ts.length ∧
    (receive_edges d ts).1.frame.length = d.frame.length + ts.length ∧
    (∀ i, i < d.frame.times_count →
      (receive_edges d ts).1.frame.times.getD i 0 = d.frame.times.getD i 0) ∧
    (∀ i, i < ts.length →
      (receive_edges d ts).1.frame.times.getD (d.frame.times_count + i) 0 = ts.getD i 0) := by
  induction ts with
  | nil =>
    intro d hf _ _ _ _ _
    exact ⟨rfl, rfl, rfl, hf, rfl, rfl, fun _ _ => rfl, fun i hi => absurd hi (Nat.not_lt_zero i)⟩
  | cons t ts ih =>
    intro d hf hc hl ht hp hfar
    simp only [List.length_cons] at hc hl
    have ht0 := ht t (List.mem_cons_self t ts)
    have hno : ∀ j, j < d.frame.times_count → time_cmp (d.frame.times.getD j 0) t = false := by
      intro j hj
      exact (time_cmp_false_iff _ _ (WF_times_lt d.frame hf.wf j) ht0.2).2
        (hfar t (List.mem_cons_self t ts) j hj)
    obtain ⟨a1, a2, a3, a4, a5, -⟩ := frame_add_append d.frame t hf hno (by omega) (by omega)
    have hadd : receive_add d.frame t = (frame_add d.frame t).1 := by
      unfold receive_add MIN_TIME
      rw [if_pos ht0.1]
      simp only [a1]
      simp
    have hstep : receive_edge d t = ({ d with frame := (frame_add d.frame t).1 }, false) := by
      unfold receive_edge MIN_PULSES
      simp only [hadd]
      rw [if_neg (fun h => by rw [a3] at h; omega)]
    rw [List.pairwise_cons] at hp
    have hrest := ih { d with frame := (frame_add d.frame t).1 }
      (FrameInv_frame_add d.frame t hf ht0.2)
      (by show (frame_add d.frame t).1.times_count + ts.length ≤ 16; rw [a2]; omega)
      (by show (frame_add d.frame t).1.length + ts.length < 20; rw [a3]; omega)
      (fun x hx => ht x (List.mem_cons_of_mem t hx)) hp.2
      (by
        intro x hx i hi
        have hi2 : i < d.frame.times_count + 1 := by rw [← a2]; exact hi
        show ¬ within_tol ((frame_add d.frame t).1.times.getD i 0) x
        by_cases hic : i < d.frame.times_count
        · rw [a5 i hic]
          exact hfar x (List.mem_cons_of_mem t hx) i hic
        · have e : i = d.frame.times_count := by omega
          rw [e, a4]
          exact hp.1 x hx)
    rw [receive_edges_cons_false d t ts (by rw [hstep]), hstep]
    obtain ⟨r1, r2, r3, r4, r5, r6, r7, r8⟩ := hrest
    simp only [List.length_cons] at r1 r2 r3 r4 r5 r6 r7 r8 ⊢
    refine ⟨by rw [r1]; rfl, r2, r3, r4, by rw [r5, a2]; omega, by rw [r6, a3]; omega,
      fun i hi => ?_, fun i hi => ?_⟩
    · rw [r7 i (by rw [a2]; omega), a5 i hi]
    · cases i with
      | zero =>
        rw [Nat.add_zero, r7 d.frame.times_count (by rw [a2]; omega), a4]
        rfl
      | succ k =>
        have := r8 k (by omega)
        rw [a2] at this
        have e : d.frame.times_count + (k + 1) = d.frame.times_count + 1 + k := by omega
        rw [e, this]
        rfl

/-- The edge that does not fit: on a full table of 16 entries none of which
is within tolerance of `x`, the level-change step restarts the working frame
with `x` alone, confirms nothing and keeps the previous candidate. -/
theorem receive_edge_resync (d : device_t) (x : Nat) (hf : FrameInv d.frame)
    (hx : 70 ≤ x ∧ x < 65536) (hfull : d.frame.times_count = 16)
    (hno : ∀ i, i < d.frame.times_count → ¬ within_tol (d.frame.times.getD i 0) x) :
    (receive_edge d x).2 = false ∧
    (receive_edge d x).1.last_frame_length = d.last_frame_length ∧
    (receive_edge d x).1.last_frame_gap = d.last_frame_gap ∧
    (receive_edge d x).1.frame.times_count = 1 ∧
    (receive_edge d x).1.frame.length = 1 ∧
    frame_get (receive_edge d x).1.frame 0 = x := by
  have hno2 : ∀ j, j < d.frame.times_count → time_cmp (d.frame.times.getD j 0) x = false :=
    fun j hj => (time_cmp_false_iff _ _ (WF_times_lt d.frame hf.wf j) hx.2).2 (hno j hj)
  have hfail := frame_add_table_full d.frame x hf hno2 hfull
  have hadd : receive_add d.frame x = (frame_add (frame_clear d.frame) x).1 := by
    unfold receive_add MIN_TIME
    rw [if_pos hx.1]
    simp only [hfail]
    simp
  obtain ⟨-, a2, a3, -, -, a6⟩ := frame_add_append (frame_clear d.frame) x
    (FrameInv_clear d.frame hf.wf) (fun j hj => absurd hj (Nat.not_lt_zero j))
    (by show 0 < 16; omega) (by show 0 < 256; omega)
  have b2 : (frame_add (frame_clear d.frame) x).1.times_count = 1 := a2
  have b3 : (frame_add (frame_clear d.frame) x).1.length = 1 := a3
  have b6 : frame_get (frame_add (frame_clear d.frame) x).1 0 = x := a6
  have hstep : receive_edge d x =
      ({ d with frame := (frame_add (frame_clear d.frame) x).1 }, false) := by
    unfold receive_edge MIN_PULSES
    simp only [hadd]
    rw [if_neg (fun h => by rw [b3] at h; omega)]
  rw [hstep]
  exact ⟨rfl, rfl, rfl, b2, b3, b6⟩

/-- C12: 17 gaps, each at least 70 and pairwise more than 100 apart, fed to
the level-change step from an empty working frame: after the 17th edge the
working frame has `times_count = 1` and `length = 1` and decodes at position 0
to the 17th gap; after every number of edges up to 17 the session has not
confirmed and the previous candidate is as it was. -/
theorem capacity_resync (d : device_t) (ds : List Nat) (hwf : d.frame.WF)
    (hlen : ds.length = 17) (hmin : ∀ x ∈ ds, 70 ≤ x ∧ x < 65536)
    (hfar : ds.Pairwise (fun a b => ¬ within_tol a b)) :
    (receive_edges (with_empty_frame d) ds).1.frame.times_count = 1 ∧
    (receive_edges (with_empty_frame d) ds).1.frame.length = 1 ∧
    frame_get (receive_edges (with_empty_frame d) ds).1.frame 0 = ds.getD 16 0 ∧
    (∀ k, k ≤ 17 →
      (receive_edges (with_empty_frame d) (ds.take k)).2 = none ∧
      (receive_edges (with_empty_frame d) (ds.take k)).1.last_frame_length =
        d.last_frame_length ∧
      (receive_edges (with_empty_frame d) (ds.take k)).1.last_frame_gap =
        d.last_frame_gap) := by
  have hinv0 : FrameInv (with_empty_frame d).frame := FrameInv_clear d.frame hwf
  -- runs of at most 16 edges
  have hshort : ∀ k, k ≤ 16 →
      (receive_edges (with_empty_frame d) (ds.take k)).2 = none ∧
      (receive_edges (with_empty_frame d) (ds.take k)).1.last_frame_length =
        d.last_frame_length ∧
      (receive_edges (with_empty_frame d) (ds.take k)).1.last_frame_gap =
        d.last_frame_gap ∧
      FrameInv (receive_edges (with_empty_frame d) (ds.take k)).1.frame ∧
      (receive_edges (with_empty_frame d) (ds.take k)).1.frame.times_count = k ∧
      (∀ i, i < k →
        (receive_edges (with_empty_frame d) (ds.take k)).1.frame.times.getD i 0 =
          (ds.take k).getD i 0) := by
    intro k hk
    have hkl : (ds.take k).length = k := by rw [List.length_take, hlen]; omega
    obtain ⟨r1, r2, r3, r4, r5, -, -, r8⟩ := receive_edges_distinct (ds.take k)
      (with_empty_frame d) hinv0
      (by rw [hkl]; show 0 + k ≤ 16; omega) (by rw [hkl]; show 0 + k < 20; omega)
      (fun x hx => hmin x (List.mem_of_mem_take hx))
      (List.Pairwise.sublist (List.take_sublist k ds) hfar)
      (fun x _ i hi => absurd hi (Nat.not_lt_zero i))
    rw [hkl] at r5 r8
    refine ⟨r1, r2, r3, r4, by rw [r5]; show 0 + k = k; omega, fun i hi => ?_⟩
    have := r8 i hi
    have e : (with_empty_frame d).frame.times_count + i = i := by show 0 + i = i; omega
    rw [e] at this
    exact this
  -- the list is its first 16 gaps and the 17th
  obtain ⟨y, hy⟩ : ∃ y, ds.drop 16 = [y] :=
    List.length_eq_one.1 (by rw [List.length_drop, hlen])
  have hsplit : ds.take 16 ++ [y] = ds := by rw [← hy, List.take_append_drop]
  have hl16 : (ds.take 16).length = 16 := by rw [List.length_take, hlen]; rfl
  have hy16 : ds.getD 16 0 = y := by
    have e : ds.getD 16 0 = (ds.take 16 ++ [y]).getD 16 0 := by rw [hsplit]
    rw [e, List.getD_append_right _ _ _ _ (by rw [hl16]), hl16]
    rfl
  have hymem : y ∈ ds := by rw [← hsplit]; simp
  obtain ⟨s1, s2, s3, s4, s5, s6⟩ := hshort 16 (le_refl 16)
  have hfar2 : ∀ i, i < 16 → ¬ within_tol ((ds.take 16).getD i 0) y := by
    intro i hi
    have hp := hfar
    rw [← hsplit, List.pairwise_append] at hp
    have hmem : (ds.take 16).getD i 0 ∈ ds.take 16 := by
      rw [List.getD_eq_getElem _ _ (by rw [hl16]; exact hi)]
      exact List.getElem_mem _
    exact hp.2.2 _ hmem y (List.mem_singleton_self y)
  obtain ⟨t1, t2, t3, t4, t5, t6⟩ := receive_edge_resync
    (receive_edges (with_empty_frame d) (ds.take 16)).1 y s4 (hmin y hymem) s5
    (fun i hi => by rw [s6 i (by rw [s5] at hi; exact hi)]; exact hfar2 i (by rw [s5] at hi; exact hi))
  have hrun : receive_edges (with_empty_frame d) ds =
      ((receive_edge (receive_edges (with_empty_frame d) (ds.take 16)).1 y).1, none) := by
    have hone : ∀ D : device_t, (receive_edge D y).2 = false →
        receive_edges D [y] = ((receive_edge D y).1, none) := by
      intro D h
      rw [receive_edges_cons_false D y [] h]
      rfl
    conv => lhs; rw [← hsplit]
    rw [receive_edges_append _ _ _ s1, hone _ t1]
    rfl
  refine ⟨by rw [hrun]; exact t4, by rw [hrun]; exact t5, by rw [hrun, hy16]; exact t6,
    fun k hk => ?_⟩
  by_cases hk16 : k ≤ 16
  · obtain ⟨u1, u2, u3, -, -, -⟩ := hshort k hk16
    exact ⟨u1, u2, u3⟩
  · have hk17 : k = 17 := by omega
    rw [hk17, List.take_of_length_le (by rw [hlen]), hrun]
    exact ⟨rfl, by rw [t2, s2], by rw [t3, s3]⟩

/-- Witness for C12: the gaps 100, 300, ..., 3300 leave a working frame
holding only 3300. -/
theorem capacity_resync_witness :
    gaps_c12.length = 17 ∧
    (receive_edges (with_empty_frame device_fresh) gaps_c12).1.frame.times_count = 1 ∧
    frame_get (receive_edges (with_empty_frame device_fresh) gaps_c12).1.frame 0 = 3300 :=
  ⟨by decide,
   (capacity_resync device_fresh gaps_c12 frame_zero_WF (by decide) (by decide)
      (by decide)).1,
   (capacity_resync device_fresh gaps_c12 frame_zero_WF (by decide) (by decide)
      (by decide)).2.2.1⟩

end Doorbellgap
